import Mathlib

/-!
Verification of the nbox Operator core (src/nbox/jobs/operator.py) and its
Airflow DAG bridge (src/nbox/framework/__airflow.py), as a shallow embedding.

Operator instances are identified by natural-number ids into a store
(a list of records), mirroring Python object identity.  Callables are
abstract references.  Python exceptions are modelled by an error type, and
fallible code returns pairs or `Except`.
-/

namespace Nbox

/-- Python exceptions that the embedded code can raise. -/
inductive PyErr : Type where
  /-- AttributeError, e.g. assigning an operator before base init, or a
      missing attribute such as python_callable on a BaseOperator. -/
  | attributeError : PyErr
  /-- KeyError, e.g. attribute name collision in Operator.setattr, or a
      missing dict key. -/
  | keyError : PyErr
  /-- TypeError, e.g. indexing a Python list with a string key. -/
  | typeError : PyErr
  /-- IndexError, list index out of range. -/
  | indexError : PyErr
  /-- ValueError, raised by the arity check of Operator.call. -/
  | valueError : PyErr
  /-- AssertionError, from a failed assert statement. -/
  | assertionError : PyErr
  /-- A generic raised Exception (from_airflow_dag raises a bare Exception
      for unsupported task kinds). -/
  | exception : PyErr
deriving DecidableEq, Repr

/-- A reference to a bound callable.  `task n` is the python_callable of the
    scheduler task numbered `n`; `composed` is the sequential forward closure
    that from_airflow_dag builds over root.operators(). -/
inductive CRef : Type where
  | task : Nat → CRef
  | composed : CRef
deriving DecidableEq, Repr

/-- One Operator instance, mirroring the Python object state:
    `dict` is the list of attribute names present in the instance __dict__
    (insertion order; the name "_operators" is present exactly when
    Operator.__init__ has run), `ops` is the _operators OrderedDict mapping
    child attribute name to the child operator id, and `fwd` is the bound
    forward callable, if any. -/
structure PyOp : Type where
  dict : List String
  ops : List (String × Nat)
  fwd : Option CRef
deriving DecidableEq, Repr

/-- A freshly constructed operator: Operator.__init__ sets self._operators,
    so "_operators" is the one attribute in __dict__. -/
def PyOp.new : PyOp := { dict := ["_operators"], ops := [], fwd := none }

/-- Association-list lookup, mirroring Python dict access by key. -/
def alookup {α : Type} : List (String × α) → String → Option α
  | [], _ => none
  | (k', v) :: rest, k => if k' = k then some v else alookup rest k

/-- Python dict assignment d[k] = v: overwrite in place if the key exists
    (keeping its position), else append. -/
def upsert {α : Type} : List (String × α) → String → α → List (String × α)
  | [], k, v => [(k, v)]
  | (k', v') :: rest, k, v =>
      if k' = k then (k, v) :: rest else (k', v') :: upsert rest k v

/-- Record an attribute name in __dict__ (a set of names, insertion ordered). -/
def addKey (l : List String) (k : String) : List String :=
  if k ∈ l then l else l ++ [k]

/-- Operator.__setattr__ with an Operator-typed value (operator.py lines
    78-85): raises AttributeError when _operators is missing from __dict__
    (owner not constructed through Operator.__init__), raises KeyError when
    the key is already a non-child attribute, otherwise registers the child
    in _operators and sets the attribute.  The returned PyOp is the owner
    afterwards; on error the owner is returned unchanged, since Python
    raises before mutating. -/
def PyOp.setattrOp (op : PyOp) (key : String) (v : Nat) : PyOp × Option PyErr :=
  if "_operators" ∉ op.dict then (op, some .attributeError)
  else if key ∈ op.dict ∧ key ∉ op.ops.map Prod.fst then (op, some .keyError)
  else ({ op with ops := upsert op.ops key v, dict := addKey op.dict key }, none)

/-- Modelled from the spec: `_register_forward` is called throughout the DAG
    bridge (src/nbox/framework/__airflow.py lines 94, 121, 129, 149) but is
    not defined in any file under src/.  Per spec section 4.5 step 3 it binds
    the operator forward callable to the given callable reference.  Since the
    bound value is not an Operator, Operator.__setattr__ registers nothing in
    _operators. -/
def PyOp.registerForward (op : PyOp) (c : CRef) : PyOp :=
  { op with fwd := some c }

/-- Read an operator out of the store by id (total; ids used by the code are
    always in range). -/
def getOp : List PyOp → Nat → PyOp
  | [], _ => PyOp.new
  | o :: _, 0 => o
  | _ :: rest, i + 1 => getOp rest i

/-- Write an operator back into the store at an id. -/
def setOp : List PyOp → Nat → PyOp → List PyOp
  | [], _, _ => []
  | _ :: rest, 0, o' => o' :: rest
  | o :: rest, i + 1, o' => o :: setOp rest i o'

/-! ## Traversal: Operator.named_operators (operator.py lines 116-157)

The Python generator threads a mutable memo set through a recursive
depth-first walk.  We embed it with an explicit fuel argument (the walk can
diverge in Python when remove_duplicate is false and the graph is cyclic);
`none` means the fuel ran out.  The result is the list of yielded
(path, operator id) pairs together with the final memo (a list of ids,
most recently added first). -/

/-- The sub-module path: the prefix, then a dot when the prefix is nonempty, then the name. -/
def subPath (p name : String) : String :=
  p ++ (if p = "" then "" else ".") ++ name

/-- The `for name, module in self._operators.items()` loop of
    named_operators: walk each (name, child) entry with the recursive visit
    `f` (the one-level-less-fuel namedOps call), threading the memo. -/
def childLoop (f : Nat → List Nat → String → Option (List (String × Nat) × List Nat)) :
    List (String × Nat) → List Nat → String →
    Option (List (String × Nat) × List Nat)
  | [], memo, _ => some ([], memo)
  | (name, c) :: rest, memo, p =>
      match f c memo (subPath p name) with
      | none => none
      | some (o1, m1) =>
          match childLoop f rest m1 p with
          | none => none
          | some (o2, m2) => some (o1 ++ o2, m2)

/-- Operator.named_operators: if self is in the memo nothing at all is
    yielded (the whole subtree is skipped); otherwise self is added to the
    memo (only when removeDup), (prefix, self) is yielded, and the children
    are walked in registration order with the memo threaded through. -/
def namedOps (st : List PyOp) : Nat → Nat → List Nat → String → Bool →
    Option (List (String × Nat) × List Nat)
  | 0, _, _, _, _ => none
  | fuel + 1, self, memo, p, rd =>
      if self ∈ memo then some ([], memo)
      else
        let memo1 := if rd then self :: memo else memo
        match childLoop (fun c m q => namedOps st fuel c m q rd)
            (getOp st self).ops memo1 p with
        | none => none
        | some (out, m) => some ((p, self) :: out, m)

/-- Normalisation applied by Operator.is_dag: the empty root label becomes
    "root". -/
def normLabel (s : String) : String := if s = "" then "root" else s

/-- The scanning loop of Operator.is_dag: return false as soon as a label
    repeats, else record it and continue. -/
def isDagLoop : List String → List String → Bool
  | [], _ => true
  | l :: ls, seen => if l ∈ seen then false else isDagLoop ls (l :: seen)

/-- Operator.is_dag (operator.py lines 166-174): walk named_operators()
    with its defaults (empty memo, empty prefix, remove_duplicate true) and
    fail exactly when a normalised path label repeats.  `none` means the
    underlying walk ran out of fuel (which the sufficiency theorem rules
    out for valid stores). -/
def isDag (st : List PyOp) (root : Nat) : Option Bool :=
  match namedOps st (st.length + 1) root [] "" true with
  | none => none
  | some (out, _) => some (isDagLoop (out.map fun pr => normLabel pr.1) [])

/-! ## Invocation: Operator.__call__ (operator.py lines 181-205)

The call machinery of a single node: `inputs` is the list of declared
forward parameter names (inspect.getfullargspec with self removed), `fwd`
is the user forward seen as a function from the bound input mapping to a
value.  `tc` is the value popped from kwargs under the key _type_check_
(default true), and `kwargs` is the keyword dict after that pop, so the
argument counting below sees exactly what line 192 sees.  The is_dag assert
of line 182 holds trivially for a single leaf node and is not repeated
here. -/

/-- The positional loop (line 197-198): input_dict[self.inputs[i]] = arg.
    Returns none when an index is out of range (Python IndexError), which
    can only happen with type checking disabled. -/
def bindPositional {V : Type} (inputs : List String) (args : List V) :
    Option (List (String × V)) :=
  go args 0 []
where
  go : List V → Nat → List (String × V) → Option (List (String × V))
    | [], _, acc => some acc
    | a :: rest, i, acc =>
        match inputs.get? i with
        | none => none
        | some name => go rest (i + 1) (upsert acc name a)

/-- Operator.__call__ after the _type_check_ pop: count the arguments,
    raise ValueError on an arity mismatch when type checking is on, bind
    positionals by position, then run the keyword loop of line 199-200.
    That loop evaluates self.inputs[key] with a string key: indexing a
    Python list with a str raises TypeError on the first iteration, so any
    nonempty kwargs ends the call with TypeError before forward runs. -/
def opCall {V R : Type} (inputs : List String) (fwd : List (String × V) → R)
    (args : List V) (kwargs : List (String × V)) (tc : Bool) : Except PyErr R :=
  let lenInputs := args.length + kwargs.length
  if tc ∧ lenInputs ≠ inputs.length then .error .valueError
  else
    match bindPositional inputs args with
    | none => .error .indexError
    | some d =>
        match kwargs with
        | [] => .ok (fwd d)
        | _ :: _ => .error .typeError

/-! ## The Airflow bridge (src/nbox/framework/__airflow.py)

Scheduler tasks are records carrying the subset of BaseOperator metadata
the bridge reads and writes: the class name (dispatched on via
__class__.__name__), the task id, the python_callable when the attribute
exists, the declared upstream task ids (what
get_direct_relatives(upstream=True) yields, projected to ids), and the
metadata fields set by to_airflow_operator. -/

/-- A scheduler task record (airflow BaseOperator / PythonOperator from the
    outside, per spec section 6). -/
structure Task : Type where
  className : String
  task_id : String
  python_callable : Option Nat
  upstreamIds : List String
  execution_timeout : Option Nat := none
  sla : Option Nat := none
  doc_rst : Option String := none
deriving DecidableEq, Repr

/-- Python truthiness default on an optional doc string: `doc if doc else ""`
    maps both None and "" to "". -/
def truthyStr : Option String → String
  | none => ""
  | some s => s

/-- Lines 51-57 of __airflow.py: full_doc = doc + "\n" + init_doc with each
    side defaulted to "", then replaced by None when falsy.  Because the
    concatenation always contains the newline, it is never falsy. -/
def fullDoc (doc initDoc : Option String) : Option String :=
  let f := truthyStr doc ++ "\n" ++ truthyStr initDoc
  if f = "" then none else some f

/-- to_airflow_operator (lines 17-88) restricted to its defaults
    (comms() failing or empty, no caller operator_kwargs, so the two dict
    updates of lines 60-61 are no-ops): the produced BaseOperator carries
    task_id = the operator class name, execution_timeout = sla = timeout,
    doc_rst = the computed full doc, and no python_callable attribute.
    The node is described by its class name, its class doc string and its
    constructor doc string. -/
def toAirflowOperator (className : String) (doc initDoc : Option String)
    (timeout : Option Nat) : Task :=
  { className := "BaseOperator"
    task_id := className
    python_callable := none
    upstreamIds := []
    execution_timeout := timeout
    sla := timeout
    doc_rst := fullDoc doc initDoc }

/-- from_airflow_operator (lines 90-95).  The source asserts
    air_operator.__class__.__name__ != "PythonOperator" with the message
    "Only PythonOperator is supported at the moment": the condition rejects
    exactly the PythonOperator tasks the message says are supported.  When
    the assert passes, op._register_forward(air_operator.python_callable)
    raises AttributeError if the task has no python_callable attribute. -/
def fromAirflowOperator (t : Task) : Except PyErr PyOp :=
  if t.className = "PythonOperator" then .error .assertionError
  else
    match t.python_callable with
    | none => .error .attributeError
    | some c => .ok (PyOp.new.registerForward (.task c))

/-- dag.task_dict lookup: find the task with the given id. -/
def taskDict (tg : List Task) (id : String) : Option Task :=
  tg.find? fun t => t.task_id = id

/-- The loop body fold of lines 108-112: the dict built so far is threaded
    left to right in task-group order. -/
def topoTreeAux (acc : List (String × List String)) :
    List Task → Except PyErr (List (String × List String))
  | [] => .ok acc
  | t :: rest =>
      if t.className ≠ "PythonOperator" then .error .exception
      else topoTreeAux (upsert acc t.task_id t.upstreamIds) rest

/-- Lines 108-112 of from_airflow_dag: iterate the task group, raise a bare
    Exception on any task whose class is not PythonOperator, and build the
    topo tree dict task_id -> upstream ids (dict assignment overwrites a
    repeated key in place). -/
def buildTopoTree (tg : List Task) : Except PyErr (List (String × List String)) :=
  topoTreeAux [] tg

/-- The mutable state of from_airflow_dag lines 115-138: the operator store
    (id 0 is the synthetic root created at line 115), the all_ops dict
    mapping task id to operator id, and the parent_less_ops list. -/
structure ImportState : Type where
  store : List PyOp
  allOps : List (String × Nat)
  parentLess : List String
deriving DecidableEq, Repr

/-- Lines 119-121: materialise the child operator if not yet present and
    bind its forward to dag.task_dict[child].python_callable.  This call is
    not inside a try block: a missing task is a KeyError and a task without
    the python_callable attribute an AttributeError. -/
def ensureChild (tg : List Task) (s : ImportState) (child : String) :
    Except PyErr ImportState :=
  match alookup s.allOps child with
  | some _ => .ok s
  | none =>
      let id := s.store.length
      let s1 : ImportState :=
        { s with store := s.store ++ [PyOp.new], allOps := s.allOps ++ [(child, id)] }
      match taskDict tg child with
      | none => .error .keyError
      | some t =>
          match t.python_callable with
          | none => .error .attributeError
          | some c =>
              .ok { s1 with
                      store := setOp s1.store id ((getOp s1.store id).registerForward (.task c)) }

/-- Lines 122-131, one parent p: materialise the parent if needed (without
    binding a forward), attach the child under op__{p}__{child} through
    Operator.__setattr__, then best-effort rebind the parent forward from
    dag.task_dict[p].python_callable inside try/except (lookup and
    attribute failures are swallowed). -/
def processParent (tg : List Task) (child : String) (s : ImportState)
    (p : String) : Except PyErr ImportState :=
  let (s1, pid) :=
    match alookup s.allOps p with
    | some pid => (s, pid)
    | none =>
        let pid := s.store.length
        ({ s with store := s.store ++ [PyOp.new], allOps := s.allOps ++ [(p, pid)] }, pid)
  match alookup s1.allOps child with
  | none => .error .keyError
  | some cid =>
      match (getOp s1.store pid).setattrOp ("op__" ++ p ++ "__" ++ child) cid with
      | (_, some e) => .error e
      | (op', none) =>
          let s2 : ImportState := { s1 with store := setOp s1.store pid op' }
          let s3 : ImportState :=
            match taskDict tg p with
            | none => s2
            | some t =>
                match t.python_callable with
                | none => s2
                | some c =>
                    { s2 with
                        store := setOp s2.store pid ((getOp s2.store pid).registerForward (.task c)) }
          .ok s3

/-- The `for p in parents` loop. -/
def processParents (tg : List Task) (child : String) :
    List String → ImportState → Except PyErr ImportState
  | [], s => .ok s
  | p :: ps, s =>
      match processParent tg child s p with
      | .error e => .error e
      | .ok s' => processParents tg child ps s'

/-- One iteration of the `for child, parents in topo_tree.items()` loop
    (lines 118-134), including the parent_less_ops bookkeeping. -/
def processPair (tg : List Task) (s : ImportState) (pair : String × List String) :
    Except PyErr ImportState :=
  match ensureChild tg s pair.1 with
  | .error e => .error e
  | .ok s1 =>
      match processParents tg pair.1 pair.2 s1 with
      | .error e => .error e
      | .ok s2 =>
          .ok (if pair.2 = [] then { s2 with parentLess := s2.parentLess ++ [pair.1] } else s2)

/-- The whole items() loop. -/
def processPairs (tg : List Task) :
    List (String × List String) → ImportState → Except PyErr ImportState
  | [], s => .ok s
  | pr :: rest, s =>
      match processPair tg s pr with
      | .error e => .error e
      | .ok s' => processPairs tg rest s'

/-- Lines 136-138: attach every parent-less operator to the synthetic root
    (operator id 0) under op__root__{task_id}. -/
def attachRoots : List String → ImportState → Except PyErr ImportState
  | [], s => .ok s
  | p :: ps, s =>
      match alookup s.allOps p with
      | none => .error .keyError
      | some pid =>
          match (getOp s.store 0).setattrOp ("op__root__" ++ p) pid with
          | (_, some e) => .error e
          | (op', none) => attachRoots ps { s with store := setOp s.store 0 op' }

/-- from_airflow_dag (lines 105-151): build the topo tree, create the
    synthetic root, run the dependency loop, attach parent-less tasks to the
    root, and register the sequential composed forward
    (the sequential_forward closure over root.operators()) on the root. -/
def fromAirflowDag (tg : List Task) : Except PyErr ImportState :=
  match buildTopoTree tg with
  | .error e => .error e
  | .ok tree =>
      let s0 : ImportState := { store := [PyOp.new], allOps := [], parentLess := [] }
      match processPairs tg tree s0 with
      | .error e => .error e
      | .ok s1 =>
          match attachRoots s1.parentLess s1 with
          | .error e => .error e
          | .ok s2 =>
              .ok { s2 with
                      store := setOp s2.store 0 ((getOp s2.store 0).registerForward .composed) }

/-! ## Helper lemmas: strings -/

theorem strAppend_cancel_left {a b c : String} (h : a ++ b = a ++ c) : b = c := by
  have h2 : (a ++ b).data = (a ++ c).data := by rw [h]
  have h3 : a.data ++ b.data = a.data ++ c.data := by simpa using h2
  exact String.ext (List.append_cancel_left h3)

theorem opName_ne_operators (p c : String) :
    ("op__" ++ p ++ "__" ++ c : String) ≠ "_operators" := by
  intro h
  have h2 : ("op__" ++ p ++ "__" ++ c : String).data = "_operators".data := by rw [h]
  simp [String.data_append] at h2

theorem rootName_ne_operators (p : String) :
    ("op__root__" ++ p : String) ≠ "_operators" := by
  intro h
  have h2 : ("op__root__" ++ p : String).data = "_operators".data := by rw [h]
  simp [String.data_append] at h2

theorem opName_inj {p c c' : String}
    (h : ("op__" ++ p ++ "__" ++ c : String) = "op__" ++ p ++ "__" ++ c') : c = c' :=
  strAppend_cancel_left h

theorem rootName_inj {p p' : String}
    (h : ("op__root__" ++ p : String) = "op__root__" ++ p') : p = p' :=
  strAppend_cancel_left h

/-! ## Helper lemmas: association lists -/

theorem alookup_append {α : Type} (l l' : List (String × α)) (k : String) :
    alookup (l ++ l') k =
      match alookup l k with
      | some v => some v
      | none => alookup l' k := by
  induction l with
  | nil => simp [alookup]
  | cons kv rest ih =>
      obtain ⟨k', v⟩ := kv
      by_cases hk : k' = k
      · simp [alookup, hk]
      · simp [alookup, hk, ih]

theorem alookup_append_of_some {α : Type} {l : List (String × α)} {k : String}
    {v : α} (l' : List (String × α)) (h : alookup l k = some v) :
    alookup (l ++ l') k = some v := by
  rw [alookup_append, h]

theorem alookup_eq_none_iff {α : Type} (l : List (String × α)) (k : String) :
    alookup l k = none ↔ k ∉ l.map Prod.fst := by
  induction l with
  | nil => simp [alookup]
  | cons kv rest ih =>
      obtain ⟨k', v⟩ := kv
      by_cases hk : k' = k
      · simp [alookup, hk]
      · simp [alookup, hk, ih]
        intro h
        exact fun hh => hk hh.symm

theorem alookup_isSome_of_mem {α : Type} {l : List (String × α)} {k : String}
    {v : α} (h : (k, v) ∈ l) : ∃ w, alookup l k = some w := by
  induction l with
  | nil => simp at h
  | cons kv rest ih =>
      obtain ⟨k', v'⟩ := kv
      by_cases hk : k' = k
      · exact ⟨v', by simp [alookup, hk]⟩
      · rcases List.mem_cons.mp h with h2 | h2
        · rw [Prod.ext_iff] at h2
          exact absurd h2.1.symm hk
        · obtain ⟨w, hw⟩ := ih h2
          exact ⟨w, by simp [alookup, hk, hw]⟩

theorem mem_of_alookup_eq_some {α : Type} {l : List (String × α)} {k : String}
    {v : α} (h : alookup l k = some v) : (k, v) ∈ l := by
  induction l with
  | nil => simp [alookup] at h
  | cons kv rest ih =>
      obtain ⟨k', v'⟩ := kv
      by_cases hk : k' = k
      · simp [alookup, hk] at h
        subst hk h
        exact List.mem_cons_self _ _
      · simp [alookup, hk] at h
        exact List.mem_cons_of_mem _ (ih h)

theorem alookup_upsert_self {α : Type} (l : List (String × α)) (k : String) (v : α) :
    alookup (upsert l k v) k = some v := by
  induction l with
  | nil => simp [upsert, alookup]
  | cons kv rest ih =>
      obtain ⟨k', v'⟩ := kv
      by_cases hk : k' = k
      · simp [upsert, hk, alookup]
      · simp [upsert, hk, alookup, ih]

theorem alookup_upsert_ne {α : Type} (l : List (String × α)) (k k' : String)
    (v : α) (h : k' ≠ k) : alookup (upsert l k v) k' = alookup l k' := by
  have hks : k ≠ k' := Ne.symm h
  induction l with
  | nil => simp [upsert, alookup, hks]
  | cons kv rest ih =>
      obtain ⟨k0, v0⟩ := kv
      by_cases hk : k0 = k
      · subst hk
        simp [upsert, alookup, hks]
      · simp [upsert, hk, alookup, ih]

theorem mem_upsert {α : Type} {l : List (String × α)} {k : String} {v : α}
    {x : String × α} (h : x ∈ upsert l k v) : x ∈ l ∨ x = (k, v) := by
  induction l with
  | nil => simpa [upsert] using h
  | cons kv rest ih =>
      obtain ⟨k0, v0⟩ := kv
      by_cases hk : k0 = k
      · simp [upsert, hk] at h
        rcases h with h | h
        · right; simpa using h
        · left; exact List.mem_cons_of_mem _ h
      · simp [upsert, hk] at h
        rcases h with h | h
        · left; simp [h]
        · rcases ih h with h2 | h2
          · left; exact List.mem_cons_of_mem _ h2
          · right; exact h2

theorem map_fst_upsert_subset {α : Type} (l : List (String × α)) (k k' : String)
    (v : α) (h : k' ∈ (upsert l k v).map Prod.fst) :
    k' ∈ l.map Prod.fst ∨ k' = k := by
  simp only [List.mem_map] at h
  obtain ⟨x, hx, hfst⟩ := h
  rcases mem_upsert hx with h2 | h2
  · left
    subst hfst
    exact List.mem_map_of_mem Prod.fst h2
  · right
    rw [← hfst, h2]

/-! ## Helper lemmas: the operator store -/

theorem length_setOp (st : List PyOp) (i : Nat) (o : PyOp) :
    (setOp st i o).length = st.length := by
  induction st generalizing i with
  | nil => simp [setOp]
  | cons hd tl ih =>
      cases i with
      | zero => simp [setOp]
      | succ j => simp [setOp, ih]

theorem getOp_setOp_self {st : List PyOp} {i : Nat} (o : PyOp)
    (h : i < st.length) : getOp (setOp st i o) i = o := by
  induction st generalizing i with
  | nil => simp at h
  | cons hd tl ih =>
      cases i with
      | zero => simp [setOp, getOp]
      | succ j =>
          simp only [setOp, getOp]
          exact ih (by simpa using h)

theorem getOp_setOp_ne (st : List PyOp) {i j : Nat} (o : PyOp) (h : i ≠ j) :
    getOp (setOp st i o) j = getOp st j := by
  induction st generalizing i j with
  | nil => simp [setOp]
  | cons hd tl ih =>
      cases i with
      | zero =>
          cases j with
          | zero => exact absurd rfl h
          | succ j' => simp [setOp, getOp]
      | succ i' =>
          cases j with
          | zero => simp [setOp, getOp]
          | succ j' =>
              simp only [setOp, getOp]
              exact ih (fun hh => h (by rw [hh]))

theorem getOp_append_self (st : List PyOp) (o : PyOp) :
    getOp (st ++ [o]) st.length = o := by
  induction st with
  | nil => simp [getOp]
  | cons hd tl ih => simpa [getOp] using ih

theorem getOp_append_lt (st l : List PyOp) {i : Nat} (h : i < st.length) :
    getOp (st ++ l) i = getOp st i := by
  induction st generalizing i with
  | nil => simp at h
  | cons hd tl ih =>
      cases i with
      | zero => simp [getOp]
      | succ j =>
          simp only [List.cons_append, getOp]
          exact ih (by simpa using h)

/-! ## Traversal theory -/

/-- A store is valid when every registered child id is an id of the store.
    Every store the embedded code builds satisfies this. -/
def ValidStore (st : List PyOp) : Prop :=
  ∀ op ∈ st, ∀ e ∈ op.ops, e.2 < st.length

instance (st : List PyOp) : Decidable (ValidStore st) := by
  unfold ValidStore
  infer_instance

theorem getOp_mem {st : List PyOp} {i : Nat} (h : i < st.length) :
    getOp st i ∈ st := by
  induction st generalizing i with
  | nil => simp at h
  | cons hd tl ih =>
      cases i with
      | zero => simp [getOp]
      | succ j =>
          simp only [getOp]
          exact List.mem_cons_of_mem _ (ih (by simpa using h))

theorem validStore_child {st : List PyOp} (hv : ValidStore st) {s : Nat}
    (hs : s < st.length) {e : String × Nat} (he : e ∈ (getOp st s).ops) :
    e.2 < st.length :=
  hv _ (getOp_mem hs) _ he

/-- A path from s to v through child edges, every node of which avoids the
    given list.  `PathAvoid st [] s v` is plain reachability. -/
inductive PathAvoid (st : List PyOp) (avoid : List Nat) : Nat → Nat → Prop where
  | refl (s : Nat) : s ∉ avoid → PathAvoid st avoid s s
  | step (s v : Nat) (e : String × Nat) : s ∉ avoid → e ∈ (getOp st s).ops →
      PathAvoid st avoid e.2 v → PathAvoid st avoid s v

/-- Reachability from the root through child edges. -/
def Reachable (st : List PyOp) (s v : Nat) : Prop := PathAvoid st [] s v

theorem PathAvoid.anti {st : List PyOp} {avoid avoid' : List Nat}
    (hsub : ∀ x ∈ avoid, x ∈ avoid') {s v : Nat} (h : PathAvoid st avoid' s v) :
    PathAvoid st avoid s v := by
  induction h with
  | refl s hs => exact .refl s fun hc => hs (hsub _ hc)
  | step s v e hs he _ ih => exact .step s v e (fun hc => hs (hsub _ hc)) he ih

/-- One-step unfolding of namedOps at positive fuel with duplicate removal
    on. -/
theorem namedOps_succ (st : List PyOp) (f s : Nat) (memo : List Nat) (p : String) :
    namedOps st (f + 1) s memo p true =
      if s ∈ memo then some ([], memo)
      else
        match childLoop (fun c m q => namedOps st f c m q true)
            (getOp st s).ops (s :: memo) p with
        | none => none
        | some (out, m) => some ((p, s) :: out, m) := by
  simp [namedOps]

/-- The final memo of a child loop is the reversed list of newly yielded
    ids prepended to the incoming memo, childLoop level. -/
theorem childLoop_memo_eq
    {f : Nat → List Nat → String → Option (List (String × Nat) × List Nat)}
    (hf : ∀ c memo q o m, f c memo q = some (o, m) →
      m = (o.map Prod.snd).reverse ++ memo) :
    ∀ lst memo p o m, childLoop f lst memo p = some (o, m) →
      m = (o.map Prod.snd).reverse ++ memo := by
  intro lst
  induction lst with
  | nil =>
      intro memo p o m h
      simp only [childLoop, Option.some.injEq, Prod.mk.injEq] at h
      rw [← h.1, ← h.2]
      simp
  | cons e rest ih =>
      obtain ⟨name, c⟩ := e
      intro memo p o m h
      simp only [childLoop] at h
      cases hfc : f c memo (subPath p name) with
      | none => rw [hfc] at h; simp at h
      | some pr1 =>
          obtain ⟨o1, m1⟩ := pr1
          simp only [hfc] at h
          cases hcl : childLoop f rest m1 p with
          | none => simp [hcl] at h
          | some pr2 =>
              obtain ⟨o2, m2⟩ := pr2
              simp only [hcl, Option.some.injEq, Prod.mk.injEq] at h
              have h1 := hf c memo _ o1 m1 hfc
              have h2 := ih m1 p o2 m2 hcl
              rw [← h.1, ← h.2, h2, h1]
              simp [List.reverse_append, List.append_assoc]

/-- The final memo of namedOps is the reversed list of yielded ids
    prepended to the incoming memo. -/
theorem namedOps_memo_eq (st : List PyOp) :
    ∀ fuel s memo p o m, namedOps st fuel s memo p true = some (o, m) →
      m = (o.map Prod.snd).reverse ++ memo := by
  intro fuel
  induction fuel with
  | zero => intro s memo p o m h; simp [namedOps] at h
  | succ f ih =>
      intro s memo p o m h
      rw [namedOps_succ] at h
      by_cases hmem : s ∈ memo
      · simp only [hmem, if_true, Option.some.injEq, Prod.mk.injEq] at h
        rw [← h.1, ← h.2]
        simp
      · simp only [hmem, if_false] at h
        cases hcl : childLoop (fun c m q => namedOps st f c m q true)
            (getOp st s).ops (s :: memo) p with
        | none => simp [hcl] at h
        | some pr =>
            obtain ⟨oc, mc⟩ := pr
            simp only [hcl, Option.some.injEq, Prod.mk.injEq] at h
            have h1 := childLoop_memo_eq (fun c memo q o m hh => ih c memo q o m hh)
              _ _ _ _ _ hcl
            rw [← h.1, ← h.2, h1]
            simp [List.append_assoc]

/-- The incoming memo is contained in the final one. -/
theorem namedOps_memo_mono (st : List PyOp) {fuel s : Nat} {memo : List Nat}
    {p : String} {o : List (String × Nat)} {m : List Nat}
    (h : namedOps st fuel s memo p true = some (o, m)) : ∀ x ∈ memo, x ∈ m := by
  intro x hx
  rw [namedOps_memo_eq st fuel s memo p o m h]
  exact List.mem_append_right _ hx

theorem childLoop_memo_mono {fuel : Nat} {st : List PyOp}
    {lst : List (String × Nat)} {memo : List Nat} {p : String}
    {o : List (String × Nat)} {m : List Nat}
    (h : childLoop (fun c mm q => namedOps st fuel c mm q true) lst memo p
      = some (o, m)) : ∀ x ∈ memo, x ∈ m := by
  intro x hx
  rw [childLoop_memo_eq (fun c memo q o m hh => namedOps_memo_eq st fuel c memo q o m hh)
    _ _ _ _ _ h]
  exact List.mem_append_right _ hx

/-- Nodup of the memo is preserved, childLoop level. -/
theorem childLoop_memo_nodup
    {f : Nat → List Nat → String → Option (List (String × Nat) × List Nat)}
    (hf : ∀ c memo q o m, f c memo q = some (o, m) → memo.Nodup → m.Nodup) :
    ∀ lst memo p o m, childLoop f lst memo p = some (o, m) →
      memo.Nodup → m.Nodup := by
  intro lst
  induction lst with
  | nil =>
      intro memo p o m h hn
      simp only [childLoop, Option.some.injEq, Prod.mk.injEq] at h
      rw [← h.2]
      exact hn
  | cons e rest ih =>
      obtain ⟨name, c⟩ := e
      intro memo p o m h hn
      simp only [childLoop] at h
      cases hfc : f c memo (subPath p name) with
      | none => simp [hfc] at h
      | some pr1 =>
          obtain ⟨o1, m1⟩ := pr1
          simp only [hfc] at h
          cases hcl : childLoop f rest m1 p with
          | none => simp [hcl] at h
          | some pr2 =>
              obtain ⟨o2, m2⟩ := pr2
              simp only [hcl, Option.some.injEq, Prod.mk.injEq] at h
              rw [← h.2]
              exact ih m1 p o2 m2 hcl (hf c memo _ o1 m1 hfc hn)

/-- Nodup of the memo is preserved by namedOps with duplicate removal. -/
theorem namedOps_memo_nodup (st : List PyOp) :
    ∀ fuel s memo p o m, namedOps st fuel s memo p true = some (o, m) →
      memo.Nodup → m.Nodup := by
  intro fuel
  induction fuel with
  | zero => intro s memo p o m h _; simp [namedOps] at h
  | succ f ih =>
      intro s memo p o m h hn
      rw [namedOps_succ] at h
      by_cases hmem : s ∈ memo
      · simp only [hmem, if_true, Option.some.injEq, Prod.mk.injEq] at h
        rw [← h.2]
        exact hn
      · simp only [hmem, if_false] at h
        cases hcl : childLoop (fun c m q => namedOps st f c m q true)
            (getOp st s).ops (s :: memo) p with
        | none => simp [hcl] at h
        | some pr =>
            obtain ⟨oc, mc⟩ := pr
            simp only [hcl, Option.some.injEq, Prod.mk.injEq] at h
            rw [← h.2]
            exact childLoop_memo_nodup (fun c memo q o m hh => ih c memo q o m hh)
              _ _ _ _ _ hcl (List.nodup_cons.mpr ⟨hmem, hn⟩)

/-- Memo entries stay within the store, childLoop level. -/
theorem childLoop_memo_lt {st : List PyOp}
    {f : Nat → List Nat → String → Option (List (String × Nat) × List Nat)}
    (hf : ∀ c memo q o m, f c memo q = some (o, m) → c < st.length →
      (∀ x ∈ memo, x < st.length) → ∀ x ∈ m, x < st.length) :
    ∀ lst memo p o m, childLoop f lst memo p = some (o, m) →
      (∀ e ∈ lst, e.2 < st.length) → (∀ x ∈ memo, x < st.length) →
      ∀ x ∈ m, x < st.length := by
  intro lst
  induction lst with
  | nil =>
      intro memo p o m h _ hmemo
      simp only [childLoop, Option.some.injEq, Prod.mk.injEq] at h
      rw [← h.2]
      exact hmemo
  | cons e rest ih =>
      obtain ⟨name, c⟩ := e
      intro memo p o m h hlst hmemo
      simp only [childLoop] at h
      cases hfc : f c memo (subPath p name) with
      | none => simp [hfc] at h
      | some pr1 =>
          obtain ⟨o1, m1⟩ := pr1
          simp only [hfc] at h
          cases hcl : childLoop f rest m1 p with
          | none => simp [hcl] at h
          | some pr2 =>
              obtain ⟨o2, m2⟩ := pr2
              simp only [hcl, Option.some.injEq, Prod.mk.injEq] at h
              rw [← h.2]
              have hc : c < st.length := hlst (name, c) (List.mem_cons_self _ _)
              have h1 := hf c memo _ o1 m1 hfc hc hmemo
              exact ih m1 p o2 m2 hcl (fun e he => hlst e (List.mem_cons_of_mem _ he)) h1

/-- Memo entries stay within the store. -/
theorem namedOps_memo_lt (st : List PyOp) (hv : ValidStore st) :
    ∀ fuel s memo p o m, namedOps st fuel s memo p true = some (o, m) →
      s < st.length → (∀ x ∈ memo, x < st.length) → ∀ x ∈ m, x < st.length := by
  intro fuel
  induction fuel with
  | zero => intro s memo p o m h _ _; simp [namedOps] at h
  | succ f ih =>
      intro s memo p o m h hs hmemo
      rw [namedOps_succ] at h
      by_cases hmem : s ∈ memo
      · simp only [hmem, if_true, Option.some.injEq, Prod.mk.injEq] at h
        rw [← h.2]
        exact hmemo
      · simp only [hmem, if_false] at h
        cases hcl : childLoop (fun c m q => namedOps st f c m q true)
            (getOp st s).ops (s :: memo) p with
        | none => simp [hcl] at h
        | some pr =>
            obtain ⟨oc, mc⟩ := pr
            simp only [hcl, Option.some.injEq, Prod.mk.injEq] at h
            rw [← h.2]
            refine childLoop_memo_lt
              (fun c memo q o m hh hc hmm => ih c memo q o m hh hc hmm)
              _ _ _ _ _ hcl (fun e he => validStore_child hv hs he) ?_
            intro x hx
            rcases List.mem_cons.mp hx with hx | hx
            · rw [hx]; exact hs
            · exact hmemo x hx

/-- The visited node itself ends up in the final memo. -/
theorem namedOps_self_mem (st : List PyOp) {fuel s : Nat} {memo : List Nat}
    {p : String} {o : List (String × Nat)} {m : List Nat}
    (h : namedOps st fuel s memo p true = some (o, m)) : s ∈ m := by
  cases fuel with
  | zero => simp [namedOps] at h
  | succ f =>
      rw [namedOps_succ] at h
      by_cases hmem : s ∈ memo
      · simp only [hmem, if_true, Option.some.injEq, Prod.mk.injEq] at h
        rw [← h.2]
        exact hmem
      · simp only [hmem, if_false] at h
        cases hcl : childLoop (fun c m q => namedOps st f c m q true)
            (getOp st s).ops (s :: memo) p with
        | none => simp [hcl] at h
        | some pr =>
            obtain ⟨oc, mc⟩ := pr
            simp only [hcl, Option.some.injEq, Prod.mk.injEq] at h
            rw [← h.2]
            exact childLoop_memo_mono hcl s (List.mem_cons_self _ _)

/-- Closedness, childLoop level: every listed child ends up in the final
    memo, and every node first visited inside the loop has all its children
    in the final memo. -/
theorem childLoop_closed (st : List PyOp) {fuel : Nat}
    (hnode : ∀ s memo p o m, namedOps st fuel s memo p true = some (o, m) →
      ∀ u, u ∈ m → u ∉ memo → ∀ e ∈ (getOp st u).ops, e.2 ∈ m) :
    ∀ lst memo p o m,
      childLoop (fun c mm q => namedOps st fuel c mm q true) lst memo p = some (o, m) →
      (∀ e ∈ lst, e.2 ∈ m) ∧
      (∀ u, u ∈ m → u ∉ memo → ∀ e ∈ (getOp st u).ops, e.2 ∈ m) := by
  intro lst
  induction lst with
  | nil =>
      intro memo p o m h
      simp only [childLoop, Option.some.injEq, Prod.mk.injEq] at h
      constructor
      · intro e he; simp at he
      · intro u hu hnu
        rw [← h.2] at hu
        exact absurd hu hnu
  | cons e rest ih =>
      obtain ⟨name, c⟩ := e
      intro memo p o m h
      simp only [childLoop] at h
      cases hfc : namedOps st fuel c memo (subPath p name) true with
      | none => simp [hfc] at h
      | some pr1 =>
          obtain ⟨o1, m1⟩ := pr1
          simp only [hfc] at h
          cases hcl : childLoop (fun c mm q => namedOps st fuel c mm q true) rest m1 p with
          | none => simp [hcl] at h
          | some pr2 =>
              obtain ⟨o2, m2⟩ := pr2
              simp only [hcl, Option.some.injEq, Prod.mk.injEq] at h
              obtain ⟨ihlst, ihclosed⟩ := ih m1 p o2 m2 hcl
              have hmono2 := childLoop_memo_mono hcl
              have hm2 : m = m2 := h.2.symm
              subst hm2
              constructor
              · intro e he
                rcases List.mem_cons.mp he with he | he
                · rw [he]
                  exact hmono2 c (namedOps_self_mem st hfc)
                · exact ihlst e he
              · intro u hu hnu
                by_cases hu1 : u ∈ m1
                · -- u was already in the memo after the head call: either it
                  -- was newly visited there (then closed by hnode) or it was
                  -- in the incoming memo (contradiction)
                  have hm1eq := namedOps_memo_eq st fuel c memo _ o1 m1 hfc
                  have hu1' := hu1
                  rw [hm1eq] at hu1'
                  rcases List.mem_append.mp hu1' with hnew | hold
                  · intro e he
                    have := hnode c memo _ o1 m1 hfc u hu1 hnu e he
                    exact hmono2 _ this
                  · exact absurd hold hnu
                · exact ihclosed u hu hu1

/-- Closedness: every node visited during the walk (added to the memo) has
    all of its children in the final memo. -/
theorem namedOps_closed (st : List PyOp) :
    ∀ fuel s memo p o m, namedOps st fuel s memo p true = some (o, m) →
      ∀ u, u ∈ m → u ∉ memo → ∀ e ∈ (getOp st u).ops, e.2 ∈ m := by
  intro fuel
  induction fuel with
  | zero => intro s memo p o m h; simp [namedOps] at h
  | succ f ih =>
      intro s memo p o m h u hu hnu
      rw [namedOps_succ] at h
      by_cases hmem : s ∈ memo
      · simp only [hmem, if_true, Option.some.injEq, Prod.mk.injEq] at h
        rw [← h.2] at hu
        exact absurd hu hnu
      · simp only [hmem, if_false] at h
        cases hcl : childLoop (fun c mm q => namedOps st f c mm q true)
            (getOp st s).ops (s :: memo) p with
        | none => simp [hcl] at h
        | some pr =>
            obtain ⟨oc, mc⟩ := pr
            simp only [hcl, Option.some.injEq, Prod.mk.injEq] at h
            have hm : m = mc := h.2.symm
            subst hm
            obtain ⟨hlst, hclosed⟩ := childLoop_closed st
              (fun s memo p o m hh => ih s memo p o m hh) _ _ _ _ _ hcl
            by_cases hus : u = s
            · subst hus
              intro e he
              exact hlst e he
            · refine hclosed u hu ?_
              intro hc
              rcases List.mem_cons.mp hc with hc | hc
              · exact hus hc
              · exact hnu hc

/-- Soundness, childLoop level: everything in the final memo was already in
    the incoming memo or is reachable from one of the listed children while
    avoiding the incoming memo. -/
theorem childLoop_sound (st : List PyOp) {fuel : Nat}
    (hnode : ∀ s memo p o m, namedOps st fuel s memo p true = some (o, m) →
      ∀ v ∈ m, v ∈ memo ∨ PathAvoid st memo s v) :
    ∀ lst memo p o m,
      childLoop (fun c mm q => namedOps st fuel c mm q true) lst memo p = some (o, m) →
      ∀ v ∈ m, v ∈ memo ∨ ∃ e ∈ lst, PathAvoid st memo e.2 v := by
  intro lst
  induction lst with
  | nil =>
      intro memo p o m h v hv
      simp only [childLoop, Option.some.injEq, Prod.mk.injEq] at h
      rw [← h.2] at hv
      exact Or.inl hv
  | cons e rest ih =>
      obtain ⟨name, c⟩ := e
      intro memo p o m h v hv
      simp only [childLoop] at h
      cases hfc : namedOps st fuel c memo (subPath p name) true with
      | none => simp [hfc] at h
      | some pr1 =>
          obtain ⟨o1, m1⟩ := pr1
          simp only [hfc] at h
          cases hcl : childLoop (fun c mm q => namedOps st fuel c mm q true) rest m1 p with
          | none => simp [hcl] at h
          | some pr2 =>
              obtain ⟨o2, m2⟩ := pr2
              simp only [hcl, Option.some.injEq, Prod.mk.injEq] at h
              rw [← h.2] at hv
              rcases ih m1 p o2 m2 hcl v hv with hv1 | ⟨e, he, hp⟩
              · rcases hnode c memo _ o1 m1 hfc v hv1 with hv0 | hp
                · exact Or.inl hv0
                · exact Or.inr ⟨(name, c), List.mem_cons_self _ _, hp⟩
              · have hmono1 := namedOps_memo_mono st hfc
                refine Or.inr ⟨e, List.mem_cons_of_mem _ he, ?_⟩
                exact hp.anti hmono1

/-- Soundness: everything in the final memo was in the incoming memo or is
    reachable from the visited node avoiding the incoming memo. -/
theorem namedOps_sound (st : List PyOp) :
    ∀ fuel s memo p o m, namedOps st fuel s memo p true = some (o, m) →
      ∀ v ∈ m, v ∈ memo ∨ PathAvoid st memo s v := by
  intro fuel
  induction fuel with
  | zero => intro s memo p o m h; simp [namedOps] at h
  | succ f ih =>
      intro s memo p o m h v hv
      rw [namedOps_succ] at h
      by_cases hmem : s ∈ memo
      · simp only [hmem, if_true, Option.some.injEq, Prod.mk.injEq] at h
        rw [← h.2] at hv
        exact Or.inl hv
      · simp only [hmem, if_false] at h
        cases hcl : childLoop (fun c mm q => namedOps st f c mm q true)
            (getOp st s).ops (s :: memo) p with
        | none => simp [hcl] at h
        | some pr =>
            obtain ⟨oc, mc⟩ := pr
            simp only [hcl, Option.some.injEq, Prod.mk.injEq] at h
            rw [← h.2] at hv
            rcases childLoop_sound st (fun s memo p o m hh => ih s memo p o m hh)
                _ _ _ _ _ hcl v hv with hv1 | ⟨e, he, hp⟩
            · rcases List.mem_cons.mp hv1 with hv1 | hv1
              · subst hv1
                exact Or.inr (PathAvoid.refl _ hmem)
              · exact Or.inl hv1
            · have hp2 : PathAvoid st memo e.2 v :=
                hp.anti (fun x hx => List.mem_cons_of_mem _ hx)
              exact Or.inr (PathAvoid.step s v e hmem he hp2)

/-- A path whose endpoints start at a node of a closed set stays inside the
    set. -/
theorem pathAvoid_mem_of_closed {st : List PyOp} {memo m : List Nat}
    (hclosed : ∀ w ∈ m, w ∉ memo → ∀ e ∈ (getOp st w).ops, e.2 ∈ m) :
    ∀ u v, PathAvoid st memo u v → u ∈ m → v ∈ m := by
  intro u v hp
  induction hp with
  | refl s _ => exact id
  | step s v e hs he _ ih =>
      intro hu
      exact ih (hclosed s hu hs e he)

/-- Completeness: every node reachable from the visited node while avoiding
    the incoming memo ends up in the final memo. -/
theorem namedOps_complete (st : List PyOp) {fuel s : Nat} {memo : List Nat}
    {p : String} {o : List (String × Nat)} {m : List Nat}
    (h : namedOps st fuel s memo p true = some (o, m)) {v : Nat}
    (hp : PathAvoid st memo s v) : v ∈ m :=
  pathAvoid_mem_of_closed (namedOps_closed st fuel s memo p o m h) s v hp
    (namedOps_self_mem st h)

/-- A Nodup list of ids below n has at most n entries. -/
theorem nodup_lt_length_le {l : List Nat} {n : Nat} (hnd : l.Nodup)
    (hlt : ∀ x ∈ l, x < n) : l.length ≤ n := by
  have hcard := List.toFinset_card_of_nodup hnd
  have hsub : l.toFinset ⊆ Finset.range n := by
    intro x hx
    simp only [List.mem_toFinset] at hx
    exact Finset.mem_range.mpr (hlt x hx)
  have := Finset.card_le_card hsub
  rw [hcard, Finset.card_range] at this
  exact this

/-- The memo never shrinks. -/
theorem namedOps_memo_len_ge (st : List PyOp) {fuel s : Nat} {memo : List Nat}
    {p : String} {o : List (String × Nat)} {m : List Nat}
    (h : namedOps st fuel s memo p true = some (o, m)) :
    memo.length ≤ m.length := by
  rw [namedOps_memo_eq st fuel s memo p o m h]
  simp

/-- Fuel sufficiency, childLoop level. -/
theorem childLoop_total (st : List PyOp) (hv : ValidStore st) {fuel : Nat}
    (hQ : ∀ s memo p, s < st.length → memo.Nodup →
      (∀ x ∈ memo, x < st.length) → st.length - memo.length < fuel →
      ∃ o m, namedOps st fuel s memo p true = some (o, m)) :
    ∀ lst memo p, (∀ e ∈ lst, e.2 < st.length) → memo.Nodup →
      (∀ x ∈ memo, x < st.length) → st.length - memo.length < fuel →
      ∃ o m, childLoop (fun c mm q => namedOps st fuel c mm q true) lst memo p
        = some (o, m) := by
  intro lst
  induction lst with
  | nil => intro memo p _ _ _ _; exact ⟨[], memo, rfl⟩
  | cons e rest ih =>
      obtain ⟨name, c⟩ := e
      intro memo p hlst hnd hlt hfuel
      obtain ⟨o1, m1, h1⟩ := hQ c memo (subPath p name)
        (hlst (name, c) (List.mem_cons_self _ _)) hnd hlt hfuel
      have hnd1 : m1.Nodup := namedOps_memo_nodup st fuel c memo _ o1 m1 h1 hnd
      have hlt1 : ∀ x ∈ m1, x < st.length :=
        namedOps_memo_lt st hv fuel c memo _ o1 m1 h1
          (hlst (name, c) (List.mem_cons_self _ _)) hlt
      have hlen1 : memo.length ≤ m1.length := namedOps_memo_len_ge st h1
      have hfuel1 : st.length - m1.length < fuel := by omega
      obtain ⟨o2, m2, h2⟩ := ih m1 p
        (fun e he => hlst e (List.mem_cons_of_mem _ he)) hnd1 hlt1 hfuel1
      refine ⟨o1 ++ o2, m2, ?_⟩
      simp only [childLoop, h1, h2]

/-- Fuel sufficiency: on a valid store, fuel exceeding the number of ids
    not yet in the memo always suffices with duplicate removal on. -/
theorem namedOps_total (st : List PyOp) (hv : ValidStore st) :
    ∀ fuel s memo p, s < st.length → memo.Nodup →
      (∀ x ∈ memo, x < st.length) → st.length - memo.length < fuel →
      ∃ o m, namedOps st fuel s memo p true = some (o, m) := by
  intro fuel
  induction fuel with
  | zero => intro s memo p _ _ _ hfuel; omega
  | succ f ih =>
      intro s memo p hs hnd hlt hfuel
      by_cases hmem : s ∈ memo
      · exact ⟨[], memo, by rw [namedOps_succ]; simp [hmem]⟩
      · have hnd1 : (s :: memo).Nodup := List.nodup_cons.mpr ⟨hmem, hnd⟩
        have hlt1 : ∀ x ∈ s :: memo, x < st.length := by
          intro x hx
          rcases List.mem_cons.mp hx with hx | hx
          · rw [hx]; exact hs
          · exact hlt x hx
        have hlen1 : (s :: memo).length ≤ st.length := nodup_lt_length_le hnd1 hlt1
        have hfuel1 : st.length - (s :: memo).length < f := by
          simp only [List.length_cons] at hlen1 ⊢
          omega
        obtain ⟨oc, mc, hcl⟩ := childLoop_total st hv
          (fun s memo p a b c d => ih s memo p a b c d)
          (getOp st s).ops (s :: memo) p
          (fun e he => validStore_child hv hs he) hnd1 hlt1 hfuel1
        refine ⟨(p, s) :: oc, mc, ?_⟩
        rw [namedOps_succ]
        simp [hmem, hcl]

/-! ## The spec-side traversal

Written from the spec wording of section 4.2 (with the amended naming for
children of the root), as an explicit-worklist depth-first traversal, to be
compared with the recursive generator embedded from the source. -/

/-- The amended dotted-path rule: a child of a node with a nonempty dotted
    path is named parent path ++ "." ++ registration name; a child of the
    root (empty path) is named by its registration name alone. -/
def specChildPath (parentPath name : String) : String :=
  if parentPath = "" then name else parentPath ++ "." ++ name

theorem specChildPath_eq_subPath (p name : String) :
    specChildPath p name = subPath p name := by
  by_cases h : p = ""
  · subst h
    apply String.ext
    simp [specChildPath, subPath, String.data_append]
  · simp [specChildPath, subPath, h]

/-- Spec traversal: depth-first pre-order by explicit worklist.  The
    worklist holds (dotted path, node) entries still to be visited; an entry
    whose node was already visited (by identity) is dropped together with
    its subtree; otherwise the entry is yielded, the node marked visited,
    and its children pushed in registration order in front of the remaining
    work, each named by the dotted-path rule. -/
def specDfs (st : List PyOp) : Nat → List (String × Nat) → List Nat →
    Option (List (String × Nat) × List Nat)
  | 0, _, _ => none
  | _ + 1, [], vis => some ([], vis)
  | f + 1, (p, v) :: rest, vis =>
      if v ∈ vis then specDfs st f rest vis
      else
        match specDfs st f
            ((getOp st v).ops.map (fun e => (specChildPath p e.1, e.2)) ++ rest)
            (v :: vis) with
        | none => none
        | some (out, vis') => some ((p, v) :: out, vis')

/-- specDfs is monotone in fuel. -/
theorem specDfs_mono (st : List PyOp) :
    ∀ f stack vis r, specDfs st f stack vis = some r →
      ∀ g, f ≤ g → specDfs st g stack vis = some r := by
  intro f
  induction f with
  | zero => intro stack vis r h; simp [specDfs] at h
  | succ f ih =>
      intro stack vis r h g hg
      obtain ⟨g', rfl⟩ : ∃ g', g = g' + 1 := ⟨g - 1, by omega⟩
      have hfg : f ≤ g' := by omega
      cases stack with
      | nil =>
          simp only [specDfs] at h ⊢
          exact h
      | cons e rest =>
          obtain ⟨p, v⟩ := e
          by_cases hvis : v ∈ vis
          · simp only [specDfs, hvis, if_true] at h ⊢
            exact ih rest vis r h g' hfg
          · simp only [specDfs, hvis, if_false] at h ⊢
            cases hin : specDfs st f
                ((getOp st v).ops.map (fun e => (specChildPath p e.1, e.2)) ++ rest)
                (v :: vis) with
            | none => simp [hin] at h
            | some pr =>
                rw [ih _ _ _ hin g' hfg]
                simp only [hin] at h
                exact h

/-- Equivalence with the spec traversal, childLoop level: if the child loop
    yields o1 leaving memo m1, and the spec traversal finishes the remaining
    worklist from m1 with o2, then the spec traversal on the children
    entries followed by the remaining worklist yields o1 ++ o2. -/
theorem childLoop_specDfs (st : List PyOp) {fuel : Nat}
    (hnode : ∀ s memo p o1 m1, namedOps st fuel s memo p true = some (o1, m1) →
      ∀ g rest o2 m2, specDfs st g rest m1 = some (o2, m2) →
      ∃ h, specDfs st h ((p, s) :: rest) memo = some (o1 ++ o2, m2)) :
    ∀ lst memo p o1 m1,
      childLoop (fun c mm q => namedOps st fuel c mm q true) lst memo p = some (o1, m1) →
      ∀ g rest o2 m2, specDfs st g rest m1 = some (o2, m2) →
      ∃ h, specDfs st h (lst.map (fun e => (specChildPath p e.1, e.2)) ++ rest) memo
        = some (o1 ++ o2, m2) := by
  intro lst
  induction lst with
  | nil =>
      intro memo p o1 m1 h g rest o2 m2 hg
      simp only [childLoop, Option.some.injEq, Prod.mk.injEq] at h
      obtain ⟨ho, hm⟩ := h
      refine ⟨g, ?_⟩
      rw [hm, ← ho]
      simpa using hg
  | cons e rest' ih =>
      obtain ⟨name, c⟩ := e
      intro memo p o1 m1 h g rest o2 m2 hg
      simp only [childLoop] at h
      cases hfc : namedOps st fuel c memo (subPath p name) true with
      | none => simp [hfc] at h
      | some pr1 =>
          obtain ⟨oa, ma⟩ := pr1
          simp only [hfc] at h
          cases hcl : childLoop (fun c mm q => namedOps st fuel c mm q true) rest' ma p with
          | none => simp [hcl] at h
          | some pr2 =>
              obtain ⟨ob, mb⟩ := pr2
              simp only [hcl, Option.some.injEq, Prod.mk.injEq] at h
              obtain ⟨hb, hbm⟩ := h
              rw [← hbm] at hg
              obtain ⟨fb, hfb⟩ := ih ma p ob mb hcl g rest o2 m2 hg
              obtain ⟨fa, hfa⟩ := hnode c memo (subPath p name) oa ma hfc fb
                (rest'.map (fun e => (specChildPath p e.1, e.2)) ++ rest) (ob ++ o2) m2 hfb
              refine ⟨fa, ?_⟩
              rw [← hb]
              simp only [List.map_cons, List.cons_append, List.append_assoc]
              rw [specChildPath_eq_subPath]
              simpa [List.append_assoc] using hfa

/-- Equivalence with the spec traversal, node level. -/
theorem namedOps_specDfs (st : List PyOp) :
    ∀ fuel s memo p o1 m1, namedOps st fuel s memo p true = some (o1, m1) →
      ∀ g rest o2 m2, specDfs st g rest m1 = some (o2, m2) →
      ∃ h, specDfs st h ((p, s) :: rest) memo = some (o1 ++ o2, m2) := by
  intro fuel
  induction fuel with
  | zero => intro s memo p o1 m1 h; simp [namedOps] at h
  | succ f ih =>
      intro s memo p o1 m1 h g rest o2 m2 hg
      rw [namedOps_succ] at h
      by_cases hmem : s ∈ memo
      · simp only [hmem, if_true, Option.some.injEq, Prod.mk.injEq] at h
        refine ⟨g + 1, ?_⟩
        rw [← h.2] at hg
        simp only [specDfs, hmem, if_true]
        rw [← h.1]
        simpa using hg
      · simp only [hmem, if_false] at h
        cases hcl : childLoop (fun c mm q => namedOps st f c mm q true)
            (getOp st s).ops (s :: memo) p with
        | none => simp [hcl] at h
        | some pr =>
            obtain ⟨oc, mc⟩ := pr
            simp only [hcl, Option.some.injEq, Prod.mk.injEq] at h
            obtain ⟨ho, hm⟩ := h
            rw [← hm] at hg
            obtain ⟨fc, hfc⟩ := childLoop_specDfs st
              (fun s memo p o1 m1 hh => ih s memo p o1 m1 hh)
              (getOp st s).ops (s :: memo) p oc mc hcl g rest o2 m2 hg
            refine ⟨fc + 1, ?_⟩
            simp only [specDfs, hmem, if_false, hfc]
            rw [← ho]
            simp

/-- The traversal from an empty memo coincides with the spec traversal
    started on the single worklist entry (empty dotted path, root). -/
theorem namedOps_eq_specDfs (st : List PyOp) {fuel s : Nat} {p : String}
    {o : List (String × Nat)} {m : List Nat}
    (h : namedOps st fuel s [] p true = some (o, m)) :
    ∃ g, specDfs st g [(p, s)] [] = some (o, m) := by
  have base : specDfs st 1 [] m = some ([], m) := rfl
  obtain ⟨g, hgg⟩ := namedOps_specDfs st fuel s [] p o m h 1 [] [] m base
  exact ⟨g, by simpa using hgg⟩

/-! ## The is_dag scanning loop -/

theorem isDagLoop_true_iff :
    ∀ (l seen : List String), isDagLoop l seen = true ↔
      (l.Nodup ∧ ∀ x ∈ l, x ∉ seen) := by
  intro l
  induction l with
  | nil => intro seen; simp [isDagLoop]
  | cons x ls ih =>
      intro seen
      by_cases hx : x ∈ seen
      · simp only [isDagLoop, hx, if_true]
        constructor
        · intro h; cases h
        · rintro ⟨_, hall⟩
          exact absurd hx (hall x (List.mem_cons_self _ _))
      · simp only [isDagLoop, hx, if_false]
        rw [ih (x :: seen)]
        constructor
        · rintro ⟨hnd, hall⟩
          refine ⟨List.nodup_cons.mpr ⟨?_, hnd⟩, ?_⟩
          · intro hxl
            exact (hall x hxl) (List.mem_cons_self _ _)
          · intro y hy
            rcases List.mem_cons.mp hy with hy | hy
            · rw [hy]; exact hx
            · intro hys
              exact (hall y hy) (List.mem_cons_of_mem _ hys)
        · rintro ⟨hnd, hall⟩
          obtain ⟨hxl, hnd2⟩ := List.nodup_cons.mp hnd
          refine ⟨hnd2, ?_⟩
          intro y hy hymem
          rcases List.mem_cons.mp hymem with hy2 | hy2
          · rw [hy2] at hy
            exact hxl hy
          · exact (hall y (List.mem_cons_of_mem _ hy)) hy2

theorem isDagLoop_nil_true_iff (l : List String) :
    isDagLoop l [] = true ↔ l.Nodup := by
  rw [isDagLoop_true_iff]
  simp

/-! ## Small helpers for the import analysis -/

theorem registerForward_ops (op : PyOp) (c : CRef) :
    (op.registerForward c).ops = op.ops := rfl

theorem registerForward_dict (op : PyOp) (c : CRef) :
    (op.registerForward c).dict = op.dict := rfl

theorem mem_addKey_of_mem {l : List String} {x : String} (k : String)
    (h : x ∈ l) : x ∈ addKey l k := by
  unfold addKey
  by_cases hk : k ∈ l
  · simp [hk, h]
  · simp [hk]
    exact Or.inl h

theorem mem_of_mem_addKey {l : List String} {x k : String}
    (h : x ∈ addKey l k) : x ∈ l ∨ x = k := by
  unfold addKey at h
  by_cases hk : k ∈ l
  · simp [hk] at h
    exact Or.inl h
  · simp [hk] at h
    exact h

theorem map_fst_upsert_of_mem {α : Type} {l : List (String × α)} {k' : String}
    (k : String) (v : α) (h : k' ∈ l.map Prod.fst) :
    k' ∈ (upsert l k v).map Prod.fst := by
  have h1 : alookup l k' ≠ none := fun hn => ((alookup_eq_none_iff l k').mp hn) h
  by_cases hk : k' = k
  · rw [hk]
    exact List.mem_map_of_mem Prod.fst (mem_of_alookup_eq_some (alookup_upsert_self l k v))
  · cases hl : alookup l k' with
    | none => exact absurd hl h1
    | some w =>
        have h2 : alookup (upsert l k v) k' = some w := by
          rw [alookup_upsert_ne l k k' v hk, hl]
        exact List.mem_map_of_mem Prod.fst (mem_of_alookup_eq_some h2)

theorem key_mem_map_fst_upsert {α : Type} (l : List (String × α)) (k : String)
    (v : α) : k ∈ (upsert l k v).map Prod.fst := by
  have := mem_of_alookup_eq_some (alookup_upsert_self l k v)
  exact List.mem_map_of_mem Prod.fst this

/-- Lookup is injective on keys when the values carry no duplicates. -/
theorem alookup_inj {l : List (String × Nat)}
    (hnd : (l.map Prod.snd).Nodup) {p p' : String} {i : Nat}
    (h1 : alookup l p = some i) (h2 : alookup l p' = some i) : p = p' := by
  induction l with
  | nil => simp [alookup] at h1
  | cons e rest ih =>
      obtain ⟨k, v⟩ := e
      simp only [List.map_cons, List.nodup_cons] at hnd
      obtain ⟨hv, hnd2⟩ := hnd
      by_cases hk1 : k = p
      · by_cases hk2 : k = p'
        · rw [← hk1, hk2]
        · simp only [alookup, hk1, if_true, Option.some.injEq] at h1
          simp only [alookup, hk2, if_false] at h2
          have : (p', i) ∈ rest := mem_of_alookup_eq_some h2
          have : i ∈ rest.map Prod.snd := List.mem_map_of_mem Prod.snd this
          rw [← h1] at this
          exact absurd this hv
      · by_cases hk2 : k = p'
        · simp only [alookup, hk2, if_true, Option.some.injEq] at h2
          simp only [alookup, hk1, if_false] at h1
          have : (p, i) ∈ rest := mem_of_alookup_eq_some h1
          have : i ∈ rest.map Prod.snd := List.mem_map_of_mem Prod.snd this
          rw [← h2] at this
          exact absurd this hv
        · simp only [alookup, hk1, if_false] at h1
          simp only [alookup, hk2, if_false] at h2
          exact ih hnd2 h1 h2

/-! ## Invariants of the from_airflow_dag loop -/

/-- Well-formedness of a node __dict__ relative to its registry: every
    attribute name is the registry marker itself or a registered child
    name.  This is what makes further Operator.__setattr__ calls on the
    node succeed. -/
def DictOk (op : PyOp) : Prop :=
  "_operators" ∈ op.dict ∧
  ∀ k ∈ op.dict, k = "_operators" ∨ k ∈ op.ops.map Prod.fst

theorem dictOk_new : DictOk PyOp.new := by
  constructor
  · simp [PyOp.new]
  · intro k hk
    simp [PyOp.new] at hk
    exact Or.inl hk

/-- Invariant of the main loop state: the synthetic root (id 0) is still
    fresh, all_ops maps task ids to distinct non-root store ids, every node
    is well-formed for attribute assignment, and every registered edge of a
    non-root node is an op__{p}__{c} edge between the operators of p and
    c. -/
structure INV (s : ImportState) : Prop where
  store_pos : 1 ≤ s.store.length
  allOps_lt : ∀ e ∈ s.allOps, 1 ≤ e.2 ∧ e.2 < s.store.length
  vals_nodup : (s.allOps.map Prod.snd).Nodup
  dict_ok : ∀ i, i < s.store.length → DictOk (getOp s.store i)
  shape : ∀ i, 1 ≤ i → i < s.store.length → ∀ e ∈ (getOp s.store i).ops,
    ∃ p c, alookup s.allOps p = some i ∧ alookup s.allOps c = some e.2 ∧
      e.1 = "op__" ++ p ++ "__" ++ c
  root_new : getOp s.store 0 = PyOp.new
  parentless_ok : ∀ c ∈ s.parentLess, (alookup s.allOps c).isSome

/-- What one loop state keeps of an earlier one: task-id bindings, child
    registrations on non-root nodes, store length, parent-less entries. -/
structure Keeps (s s' : ImportState) : Prop where
  look : ∀ k v, alookup s.allOps k = some v → alookup s'.allOps k = some v
  ops : ∀ i, 1 ≤ i → i < s.store.length → ∀ n v,
    alookup (getOp s.store i).ops n = some v →
    alookup (getOp s'.store i).ops n = some v
  len : s.store.length ≤ s'.store.length
  pl : ∀ c ∈ s.parentLess, c ∈ s'.parentLess

theorem Keeps.refl (s : ImportState) : Keeps s s :=
  ⟨fun _ _ h => h, fun _ _ _ _ _ h => h, Nat.le_refl _, fun _ h => h⟩

theorem Keeps.trans {s s' s'' : ImportState} (h1 : Keeps s s')
    (h2 : Keeps s' s'') : Keeps s s'' := by
  refine ⟨fun k v h => h2.look k v (h1.look k v h), ?_, Nat.le_trans h1.len h2.len,
    fun c h => h2.pl c (h1.pl c h)⟩
  intro i hi1 hi2 n v h
  exact h2.ops i hi1 (Nat.lt_of_lt_of_le hi2 h1.len) n v (h1.ops i hi1 hi2 n v h)

/-- The child operator of `child` is registered on the parent operator of
    `p` under the attribute name op__{p}__{child}. -/
def Attached (s : ImportState) (p child : String) : Prop :=
  ∃ pid cid, alookup s.allOps p = some pid ∧ alookup s.allOps child = some cid ∧
    alookup (getOp s.store pid).ops ("op__" ++ p ++ "__" ++ child) = some cid

theorem Attached.keeps {s s' : ImportState} (hinv : INV s) (hk : Keeps s s')
    {p child : String} (h : Attached s p child) : Attached s' p child := by
  obtain ⟨pid, cid, hp, hc, hops⟩ := h
  obtain ⟨h1, h2⟩ := hinv.allOps_lt _ (mem_of_alookup_eq_some hp)
  exact ⟨pid, cid, hk.look _ _ hp, hk.look _ _ hc, hk.ops pid h1 h2 _ _ hops⟩

/-- Materialising a fresh operator for an unseen task id. -/
def addFresh (s : ImportState) (k : String) : ImportState :=
  { s with store := s.store ++ [PyOp.new],
           allOps := s.allOps ++ [(k, s.store.length)] }

theorem INV_addFresh {s : ImportState} (hinv : INV s) {k : String}
    (hnone : alookup s.allOps k = none) :
    INV (addFresh s k) ∧ Keeps s (addFresh s k) ∧
    alookup (addFresh s k).allOps k = some s.store.length := by
  have hlen : (addFresh s k).store.length = s.store.length + 1 := by
    simp [addFresh]
  have hgetlt : ∀ i, i < s.store.length →
      getOp (addFresh s k).store i = getOp s.store i := by
    intro i hi
    exact getOp_append_lt _ _ hi
  have hlookpers : ∀ k' v, alookup s.allOps k' = some v →
      alookup (addFresh s k).allOps k' = some v := by
    intro k' v h
    exact alookup_append_of_some _ h
  have hlooknew : alookup (addFresh s k).allOps k = some s.store.length := by
    show alookup (s.allOps ++ [(k, s.store.length)]) k = some s.store.length
    rw [alookup_append, hnone]
    simp [alookup]
  refine ⟨⟨?_, ?_, ?_, ?_, ?_, ?_, ?_⟩, ⟨hlookpers, ?_, ?_, ?_⟩, hlooknew⟩
  · rw [hlen]; omega
  · intro e he
    rw [hlen]
    rcases List.mem_append.mp he with he | he
    · have := hinv.allOps_lt e he
      omega
    · simp at he
      subst he
      exact ⟨hinv.store_pos, by omega⟩
  · show ((s.allOps ++ [(k, s.store.length)]).map Prod.snd).Nodup
    rw [List.map_append]
    rw [List.nodup_append]
    refine ⟨hinv.vals_nodup, by simp, ?_⟩
    intro a ha hb
    simp at hb
    simp only [List.mem_map] at ha
    obtain ⟨e, he, hae⟩ := ha
    have := (hinv.allOps_lt e he).2
    omega
  · intro i hi
    rw [hlen] at hi
    by_cases hi2 : i < s.store.length
    · rw [hgetlt i hi2]
      exact hinv.dict_ok i hi2
    · have : i = s.store.length := by omega
      rw [this]
      show DictOk (getOp (s.store ++ [PyOp.new]) s.store.length)
      rw [getOp_append_self]
      exact dictOk_new
  · intro i h1 h2 e he
    rw [hlen] at h2
    by_cases hi2 : i < s.store.length
    · rw [hgetlt i hi2] at he
      obtain ⟨p, c, hp, hc, hn⟩ := hinv.shape i h1 hi2 e he
      exact ⟨p, c, hlookpers _ _ hp, hlookpers _ _ hc, hn⟩
    · have : i = s.store.length := by omega
      rw [this] at he
      have : getOp (addFresh s k).store s.store.length = PyOp.new := by
        show getOp (s.store ++ [PyOp.new]) s.store.length = PyOp.new
        exact getOp_append_self _ _
      rw [this] at he
      simp [PyOp.new] at he
  · rw [show getOp (addFresh s k).store 0 = getOp s.store 0 from
      hgetlt 0 hinv.store_pos]
    exact hinv.root_new
  · intro c hc
    obtain ⟨v, hv⟩ := Option.isSome_iff_exists.mp (hinv.parentless_ok c hc)
    exact Option.isSome_iff_exists.mpr ⟨v, hlookpers _ _ hv⟩
  · intro i h1 h2 n v h
    rw [hgetlt i h2]
    exact h
  · rw [hlen]; omega
  · intro c hc; exact hc

/-- Rebinding the forward of a non-root node changes no registry state. -/
def setFwd (s : ImportState) (i : Nat) (c : CRef) : ImportState :=
  { s with store := setOp s.store i ((getOp s.store i).registerForward c) }

theorem INV_setFwd {s : ImportState} (hinv : INV s) {i : Nat}
    (h1 : 1 ≤ i) (h2 : i < s.store.length) (c : CRef) :
    INV (setFwd s i c) ∧ Keeps s (setFwd s i c) := by
  have hlen : (setFwd s i c).store.length = s.store.length := by
    simp [setFwd, length_setOp]
  have hget : ∀ j, getOp (setFwd s i c).store j =
      if j = i then (getOp s.store i).registerForward c else getOp s.store j := by
    intro j
    by_cases hj : j = i
    · subst hj
      simp [setFwd, getOp_setOp_self _ h2]
    · simp [setFwd, hj, getOp_setOp_ne _ _ (fun hh => hj hh.symm)]
  have hops : ∀ j, (getOp (setFwd s i c).store j).ops = (getOp s.store j).ops := by
    intro j
    rw [hget j]
    by_cases hj : j = i <;> simp [hj, registerForward_ops]
  have hdict : ∀ j, (getOp (setFwd s i c).store j).dict = (getOp s.store j).dict := by
    intro j
    rw [hget j]
    by_cases hj : j = i <;> simp [hj, registerForward_dict]
  refine ⟨⟨?_, ?_, ?_, ?_, ?_, ?_, ?_⟩, ⟨?_, ?_, ?_, ?_⟩⟩
  · rw [hlen]; exact hinv.store_pos
  · rw [hlen]; exact hinv.allOps_lt
  · exact hinv.vals_nodup
  · intro j hj
    rw [hlen] at hj
    have := hinv.dict_ok j hj
    unfold DictOk at this ⊢
    rw [hops j, hdict j]
    exact this
  · intro j hj1 hj2 e he
    rw [hlen] at hj2
    rw [hops j] at he
    exact hinv.shape j hj1 hj2 e he
  · rw [hget 0]
    have h0 : (0 : Nat) ≠ i := by omega
    rw [if_neg h0]
    exact hinv.root_new
  · exact hinv.parentless_ok
  · intro k v h; exact h
  · intro j hj1 hj2 n v h
    rw [hops j]
    exact h
  · rw [hlen]
  · intro c2 hc; exact hc

/-- Attaching the child operator onto the parent operator through
    Operator.__setattr__ always succeeds under the invariant, preserves it,
    keeps every existing registration, and establishes the attachment. -/
theorem INV_attach {s : ImportState} (hinv : INV s) {p child : String}
    {pid cid : Nat} (hp : alookup s.allOps p = some pid)
    (hc : alookup s.allOps child = some cid) :
    ∃ op', (getOp s.store pid).setattrOp ("op__" ++ p ++ "__" ++ child) cid
        = (op', none) ∧
      INV { s with store := setOp s.store pid op' } ∧
      Keeps s { s with store := setOp s.store pid op' } ∧
      Attached { s with store := setOp s.store pid op' } p child := by
  obtain ⟨hpid1, hpid2⟩ := hinv.allOps_lt _ (mem_of_alookup_eq_some hp)
  have hdok := hinv.dict_ok pid hpid2
  set key : String := "op__" ++ p ++ "__" ++ child with hkey
  set op := getOp s.store pid with hop
  -- the two guards of __setattr__ both pass
  have hg1 : ¬ ("_operators" ∉ op.dict) := fun hh => hh hdok.1
  have hg2 : ¬ (key ∈ op.dict ∧ key ∉ op.ops.map Prod.fst) := by
    rintro ⟨hin, hnot⟩
    rcases hdok.2 key hin with hkk | hkk
    · exact opName_ne_operators p child hkk
    · exact hnot hkk
  have hset : op.setattrOp key cid =
      ({ op with ops := upsert op.ops key cid, dict := addKey op.dict key }, none) := by
    unfold PyOp.setattrOp
    rw [if_neg hg1, if_neg hg2]
  set op' : PyOp := { op with ops := upsert op.ops key cid, dict := addKey op.dict key }
    with hop'
  set s' : ImportState := { s with store := setOp s.store pid op' } with hs'
  have hlen : s'.store.length = s.store.length := by simp [hs', length_setOp]
  have hget : ∀ j, getOp s'.store j =
      if j = pid then op' else getOp s.store j := by
    intro j
    by_cases hj : j = pid
    · subst hj
      simp [hs', getOp_setOp_self _ hpid2]
    · simp [hs', hj, getOp_setOp_ne _ _ (fun hh => hj hh.symm)]
  -- an existing registration under the same key carries the same value
  have hsamekey : ∀ v, alookup op.ops key = some v → v = cid := by
    intro v hv
    obtain ⟨p2, c2, hp2, hc2, hn2⟩ :=
      hinv.shape pid hpid1 hpid2 (key, v) (mem_of_alookup_eq_some hv)
    dsimp only at hc2 hn2
    have hpp : p2 = p := alookup_inj hinv.vals_nodup hp2 hp
    subst hpp
    have hn3 : ("op__" ++ p2 ++ "__" ++ child : String)
        = "op__" ++ p2 ++ "__" ++ c2 := hn2
    have hcc : child = c2 := opName_inj hn3
    subst hcc
    have hvc : some v = some cid := hc2.symm.trans hc
    exact Option.some_inj.mp hvc
  refine ⟨op', hset, ⟨?_, ?_, ?_, ?_, ?_, ?_, ?_⟩, ⟨?_, ?_, ?_, ?_⟩, ?_⟩
  · rw [hlen]; exact hinv.store_pos
  · rw [hlen]; exact hinv.allOps_lt
  · exact hinv.vals_nodup
  · intro j hj
    rw [hlen] at hj
    rw [hget j]
    by_cases hjj : j = pid
    · rw [if_pos hjj]
      constructor
      · exact mem_addKey_of_mem key hdok.1
      · intro k hk
        rcases mem_of_mem_addKey hk with hk | hk
        · rcases hdok.2 k hk with hk2 | hk2
          · exact Or.inl hk2
          · exact Or.inr (map_fst_upsert_of_mem key cid hk2)
        · rw [hk]
          exact Or.inr (key_mem_map_fst_upsert op.ops key cid)
    · rw [if_neg hjj]
      exact hinv.dict_ok j hj
  · intro j hj1 hj2 e he
    rw [hlen] at hj2
    by_cases hjj : j = pid
    · subst hjj
      rw [hget j, if_pos rfl] at he
      have he' : e ∈ upsert op.ops key cid := he
      rcases mem_upsert he' with he2 | he2
      · exact hinv.shape j hj1 hj2 e he2
      · rw [he2]
        exact ⟨p, child, hp, hc, rfl⟩
    · rw [hget j, if_neg hjj] at he
      exact hinv.shape j hj1 hj2 e he
  · rw [hget 0, if_neg (by omega : (0 : Nat) ≠ pid)]
    exact hinv.root_new
  · exact hinv.parentless_ok
  · intro k v h; exact h
  · intro j hj1 hj2 n v h
    rw [hget j]
    by_cases hjj : j = pid
    · rw [if_pos hjj]
      subst hjj
      show alookup (upsert op.ops key cid) n = some v
      by_cases hn : n = key
      · subst hn
        rw [hsamekey v h]
        exact alookup_upsert_self _ _ _
      · rw [alookup_upsert_ne _ _ _ _ hn]
        exact h
    · rw [if_neg hjj]
      exact h
  · rw [hlen]
  · intro c2 hc2; exact hc2
  · refine ⟨pid, cid, hp, hc, ?_⟩
    rw [hget pid, if_pos rfl]
    show alookup (upsert op.ops key cid) key = some cid
    exact alookup_upsert_self _ _ _

/-- The task id has a task in the group carrying a python_callable. -/
def HcTask (tg : List Task) (c : String) : Prop :=
  ∃ t, taskDict tg c = some t ∧ t.python_callable.isSome

/-- A successful ensureChild implies the task id was known already or its
    task and callable exist. -/
theorem ensureChild_hc {tg : List Task} {s : ImportState} {child : String}
    {s1 : ImportState} (h : ensureChild tg s child = .ok s1) :
    (alookup s.allOps child).isSome ∨ HcTask tg child := by
  unfold ensureChild at h
  cases hl : alookup s.allOps child with
  | some cid => exact Or.inl (by simp [hl])
  | none =>
      simp only [hl] at h
      cases ht : taskDict tg child with
      | none => simp [ht] at h
      | some t =>
          simp only [ht] at h
          cases hc : t.python_callable with
          | none => simp [hc] at h
          | some c => exact Or.inr ⟨t, ht, by simp [hc]⟩

/-- Recording a parent-less child keeps everything and the invariant. -/
theorem Keeps_addPL (s : ImportState) (c : String) :
    Keeps s { s with parentLess := s.parentLess ++ [c] } :=
  ⟨fun _ _ h => h, fun _ _ _ _ _ h => h, Nat.le_refl _,
    fun _ h => List.mem_append_left _ h⟩

theorem INV_addPL {s : ImportState} (hinv : INV s) {c : String}
    (hc : (alookup s.allOps c).isSome) :
    INV { s with parentLess := s.parentLess ++ [c] } := by
  refine ⟨hinv.store_pos, hinv.allOps_lt, hinv.vals_nodup, hinv.dict_ok,
    hinv.shape, hinv.root_new, ?_⟩
  intro d hd
  rcases List.mem_append.mp hd with hd | hd
  · exact hinv.parentless_ok d hd
  · simp at hd
    rw [hd]
    exact hc

/-- ensureChild succeeds under the invariant whenever the task id is known
    or resolvable, preserves the invariant and keeps prior state, and makes
    the task id known. -/
theorem ensureChild_ok (tg : List Task) (child : String) {s : ImportState}
    (hinv : INV s) (hc : (alookup s.allOps child).isSome ∨ HcTask tg child) :
    ∃ s', ensureChild tg s child = .ok s' ∧ INV s' ∧ Keeps s s' ∧
      (alookup s'.allOps child).isSome := by
  cases hl : alookup s.allOps child with
  | some cid =>
      refine ⟨s, ?_, hinv, Keeps.refl s, by simp [hl]⟩
      unfold ensureChild
      simp [hl]
  | none =>
      rcases hc with hc | hc
      · rw [hl] at hc; cases hc
      · obtain ⟨t, ht, hcal⟩ := hc
        obtain ⟨c, hcal⟩ := Option.isSome_iff_exists.mp hcal
        obtain ⟨hinv1, hk1, hlook1⟩ := INV_addFresh hinv hl
        have hb1 : 1 ≤ s.store.length := hinv.store_pos
        have hb2 : s.store.length < (addFresh s child).store.length := by
          simp [addFresh]
        obtain ⟨hinv2, hk2⟩ := INV_setFwd hinv1 hb1 hb2 (.task c)
        refine ⟨setFwd (addFresh s child) s.store.length (.task c), ?_, hinv2,
          hk1.trans hk2, Option.isSome_iff_exists.mpr
            ⟨s.store.length, hk2.look _ _ hlook1⟩⟩
        unfold ensureChild
        simp only [hl, ht, hcal, addFresh, setFwd]

/-- processParent always succeeds under the invariant once the child id is
    known: the parent is materialised if needed, the attachment is made and
    everything prior is kept. -/
theorem processParent_ok (tg : List Task) (child p : String)
    {s : ImportState} {cid : Nat} (hinv : INV s)
    (hchild : alookup s.allOps child = some cid) :
    ∃ s', processParent tg child s p = .ok s' ∧ INV s' ∧ Keeps s s' ∧
      Attached s' p child := by
  cases hp : alookup s.allOps p with
  | some pid =>
      obtain ⟨op', hset, hinv2, hk2, hatt2⟩ := INV_attach hinv hp hchild
      have hlookp2 : alookup ({ s with store := setOp s.store pid op' } :
          ImportState).allOps p = some pid := hk2.look _ _ hp
      obtain ⟨hb1, hb2⟩ := hinv2.allOps_lt _ (mem_of_alookup_eq_some hlookp2)
      cases htd : taskDict tg p with
      | none =>
          refine ⟨_, ?_, hinv2, hk2, hatt2⟩
          unfold processParent
          simp only [hp, hchild, hset, htd]
      | some t =>
          cases hcal : t.python_callable with
          | none =>
              refine ⟨_, ?_, hinv2, hk2, hatt2⟩
              unfold processParent
              simp only [hp, hchild, hset, htd, hcal]
          | some c =>
              obtain ⟨hinv3, hk3⟩ := INV_setFwd hinv2 hb1 hb2 (.task c)
              refine ⟨_, ?_, hinv3, hk2.trans hk3, hatt2.keeps hinv2 hk3⟩
              unfold processParent
              simp only [hp, hchild, hset, htd, hcal, setFwd]
  | none =>
      obtain ⟨hinv1, hk1, hlookp1⟩ := INV_addFresh hinv hp
      have hchild1 : alookup (addFresh s p).allOps child = some cid :=
        hk1.look _ _ hchild
      have hchild1u : alookup (s.allOps ++ [(p, s.store.length)]) child = some cid :=
        hchild1
      obtain ⟨op', hset, hinv2, hk2, hatt2⟩ := INV_attach hinv1 hlookp1 hchild1
      simp only [addFresh] at hset
      have hlookp2 : alookup ({ addFresh s p with
          store := setOp (addFresh s p).store s.store.length op' } :
          ImportState).allOps p = some s.store.length := hk2.look _ _ hlookp1
      obtain ⟨hb1, hb2⟩ := hinv2.allOps_lt _ (mem_of_alookup_eq_some hlookp2)
      cases htd : taskDict tg p with
      | none =>
          refine ⟨_, ?_, hinv2, hk1.trans hk2, hatt2⟩
          unfold processParent
          simp only [hp, hchild1u, hset, htd, addFresh]
      | some t =>
          cases hcal : t.python_callable with
          | none =>
              refine ⟨_, ?_, hinv2, hk1.trans hk2, hatt2⟩
              unfold processParent
              simp only [hp, hchild1u, hset, htd, hcal, addFresh]
          | some c =>
              obtain ⟨hinv3, hk3⟩ := INV_setFwd hinv2 hb1 hb2 (.task c)
              refine ⟨_, ?_, hinv3, (hk1.trans hk2).trans hk3,
                hatt2.keeps hinv2 hk3⟩
              unfold processParent
              simp only [hp, hchild1u, hset, htd, hcal, addFresh, setFwd]

/-- The parents loop succeeds and attaches the child to every parent. -/
theorem processParents_ok (tg : List Task) (child : String) :
    ∀ (ps : List String) (s : ImportState), INV s →
      (alookup s.allOps child).isSome →
      ∃ s', processParents tg child ps s = .ok s' ∧ INV s' ∧ Keeps s s' ∧
        ∀ p ∈ ps, Attached s' p child := by
  intro ps
  induction ps with
  | nil =>
      intro s hinv _
      exact ⟨s, rfl, hinv, Keeps.refl s, by simp⟩
  | cons p ps ih =>
      intro s hinv hchild
      obtain ⟨cid, hcid⟩ := Option.isSome_iff_exists.mp hchild
      obtain ⟨s1, hstep, hinv1, hk1, hatt1⟩ := processParent_ok tg child p hinv hcid
      have hchild1 : (alookup s1.allOps child).isSome :=
        Option.isSome_iff_exists.mpr ⟨cid, hk1.look _ _ hcid⟩
      obtain ⟨s2, hrest, hinv2, hk2, hatts⟩ := ih s1 hinv1 hchild1
      refine ⟨s2, ?_, hinv2, hk1.trans hk2, ?_⟩
      · simp only [processParents, hstep, hrest]
      · intro q hq
        rcases List.mem_cons.mp hq with hq | hq
        · rw [hq]
          exact hatt1.keeps hinv1 hk2
        · exact hatts q hq

/-- One topo-tree pair: succeeds when the child task is known or
    resolvable; attaches the child to each parent; records a parent-less
    child. -/
theorem processPair_ok (tg : List Task) (pr : String × List String)
    {s : ImportState} (hinv : INV s)
    (hc : (alookup s.allOps pr.1).isSome ∨ HcTask tg pr.1) :
    ∃ s', processPair tg s pr = .ok s' ∧ INV s' ∧ Keeps s s' ∧
      (∀ p ∈ pr.2, Attached s' p pr.1) ∧
      (pr.2 = [] → pr.1 ∈ s'.parentLess) := by
  obtain ⟨s1, h1, hinv1, hk1, hpresent⟩ := ensureChild_ok tg pr.1 hinv hc
  obtain ⟨s2, h2, hinv2, hk2, hatts⟩ := processParents_ok tg pr.1 pr.2 s1 hinv1 hpresent
  have hpres2 : (alookup s2.allOps pr.1).isSome := by
    obtain ⟨v, hv⟩ := Option.isSome_iff_exists.mp hpresent
    exact Option.isSome_iff_exists.mpr ⟨v, hk2.look _ _ hv⟩
  by_cases hps : pr.2 = []
  · refine ⟨{ s2 with parentLess := s2.parentLess ++ [pr.1] }, ?_,
      INV_addPL hinv2 hpres2, (hk1.trans hk2).trans (Keeps_addPL s2 pr.1), ?_, ?_⟩
    · rw [hps] at h2
      unfold processPair
      simp [h1, h2, hps]
    · intro p hp
      exact (hatts p hp).keeps hinv2 (Keeps_addPL s2 pr.1)
    · intro _
      exact List.mem_append_right _ (by simp)
  · refine ⟨s2, ?_, hinv2, hk1.trans hk2, hatts, fun hh => absurd hh hps⟩
    unfold processPair
    simp [h1, h2, hps]

/-- A successful processPair implies its child was known or resolvable. -/
theorem processPair_hc {tg : List Task} {s : ImportState}
    {pr : String × List String} {s' : ImportState}
    (h : processPair tg s pr = .ok s') :
    (alookup s.allOps pr.1).isSome ∨ HcTask tg pr.1 := by
  unfold processPair at h
  cases he : ensureChild tg s pr.1 with
  | error e => simp [he] at h
  | ok s1 => exact ensureChild_hc he

/-- Inversion for the whole items() loop: a successful run preserves the
    invariant, keeps the initial state, attaches every listed dependency,
    and records every parent-less child. -/
theorem processPairs_inv (tg : List Task) :
    ∀ (l : List (String × List String)) (s s' : ImportState),
      INV s → processPairs tg l s = .ok s' →
      INV s' ∧ Keeps s s' ∧
      ∀ pr ∈ l, (∀ p ∈ pr.2, Attached s' p pr.1) ∧
        (pr.2 = [] → pr.1 ∈ s'.parentLess) := by
  intro l
  induction l with
  | nil =>
      intro s s' hinv h
      simp only [processPairs, Except.ok.injEq] at h
      subst h
      exact ⟨hinv, Keeps.refl s, by simp⟩
  | cons pr rest ih =>
      intro s s' hinv h
      unfold processPairs at h
      cases hstep : processPair tg s pr with
      | error e => simp [hstep] at h
      | ok s1 =>
          simp only [hstep] at h
          obtain ⟨s1', heq, hinv1, hk1, hatts1, hpl1⟩ :=
            processPair_ok tg pr hinv (processPair_hc hstep)
          rw [hstep] at heq
          injection heq with heq'
          subst heq'
          obtain ⟨hinv2, hk2, hrest⟩ := ih s1 s' hinv1 h
          refine ⟨hinv2, hk1.trans hk2, ?_⟩
          intro q hq
          rcases List.mem_cons.mp hq with hq | hq
          · subst hq
            constructor
            · intro p hp
              exact (hatts1 p hp).keeps hinv1 hk2
            · intro hh
              exact hk2.pl _ (hpl1 hh)
          · exact hrest q hq

/-- Totality for the items() loop when every child task is resolvable. -/
theorem processPairs_total (tg : List Task) :
    ∀ (l : List (String × List String)) (s : ImportState), INV s →
      (∀ pr ∈ l, HcTask tg pr.1) →
      ∃ s', processPairs tg l s = .ok s' := by
  intro l
  induction l with
  | nil => intro s _ _; exact ⟨s, rfl⟩
  | cons pr rest ih =>
      intro s hinv hall
      obtain ⟨s1, h1, hinv1, _, _, _⟩ :=
        processPair_ok tg pr hinv (Or.inr (hall pr (List.mem_cons_self _ _)))
      obtain ⟨s', h'⟩ := ih s1 hinv1
        (fun q hq => hall q (List.mem_cons_of_mem _ hq))
      exact ⟨s', by simp only [processPairs, h1, h']⟩

/-- Lines 136-138 always succeed when the root is assignable, every root
    edge is an op__root__{q} edge, and every listed task id is known; the
    loop touches only the root, attaches every listed operator to it, and
    keeps existing root attachments. -/
theorem attachRoots_ok :
    ∀ (ps : List String) (s : ImportState),
      1 ≤ s.store.length →
      DictOk (getOp s.store 0) →
      (∀ e ∈ (getOp s.store 0).ops, ∃ q, alookup s.allOps q = some e.2 ∧
        e.1 = "op__root__" ++ q) →
      (∀ c ∈ ps, (alookup s.allOps c).isSome) →
      ∃ s', attachRoots ps s = .ok s' ∧
        s'.allOps = s.allOps ∧
        s'.parentLess = s.parentLess ∧
        s'.store.length = s.store.length ∧
        (∀ i, 1 ≤ i → getOp s'.store i = getOp s.store i) ∧
        (∀ q pid, alookup s.allOps q = some pid →
          alookup (getOp s.store 0).ops ("op__root__" ++ q) = some pid →
          alookup (getOp s'.store 0).ops ("op__root__" ++ q) = some pid) ∧
        (∀ p ∈ ps, ∃ pid, alookup s.allOps p = some pid ∧
          alookup (getOp s'.store 0).ops ("op__root__" ++ p) = some pid) := by
  intro ps
  induction ps with
  | nil =>
      intro s _ _ _ _
      exact ⟨s, rfl, rfl, rfl, rfl, fun _ _ => rfl, fun _ _ _ h => h, by simp⟩
  | cons p ps ih =>
      intro s hpos hdok hshape hps
      obtain ⟨pid, hlookp⟩ := Option.isSome_iff_exists.mp
        (hps p (List.mem_cons_self _ _))
      set root := getOp s.store 0 with hroot
      set key : String := "op__root__" ++ p with hkey
      have hg1 : ¬ ("_operators" ∉ root.dict) := fun hh => hh hdok.1
      have hg2 : ¬ (key ∈ root.dict ∧ key ∉ root.ops.map Prod.fst) := by
        rintro ⟨hin, hnot⟩
        rcases hdok.2 key hin with hkk | hkk
        · exact rootName_ne_operators p hkk
        · exact hnot hkk
      have hset : root.setattrOp key pid =
          ({ root with ops := upsert root.ops key pid, dict := addKey root.dict key }, none) := by
        unfold PyOp.setattrOp
        rw [if_neg hg1, if_neg hg2]
      set op' : PyOp := { root with ops := upsert root.ops key pid, dict := addKey root.dict key } with hop'
      set s2 : ImportState := { s with store := setOp s.store 0 op' } with hs2
      have hlen2 : s2.store.length = s.store.length := by simp [hs2, length_setOp]
      have hget2 : ∀ i, 1 ≤ i → getOp s2.store i = getOp s.store i := by
        intro i hi
        simp [hs2]
        exact getOp_setOp_ne _ _ (by omega)
      have hroot2 : getOp s2.store 0 = op' := by
        simp [hs2]
        exact getOp_setOp_self _ hpos
      have hdok2 : DictOk (getOp s2.store 0) := by
        rw [hroot2]
        constructor
        · exact mem_addKey_of_mem key hdok.1
        · intro k hk
          rcases mem_of_mem_addKey hk with hk | hk
          · rcases hdok.2 k hk with hk2 | hk2
            · exact Or.inl hk2
            · exact Or.inr (map_fst_upsert_of_mem key pid hk2)
          · rw [hk]
            exact Or.inr (key_mem_map_fst_upsert root.ops key pid)
      have hshape2 : ∀ e ∈ (getOp s2.store 0).ops,
          ∃ q, alookup s2.allOps q = some e.2 ∧ e.1 = "op__root__" ++ q := by
        rw [hroot2]
        intro e he
        rcases mem_upsert (show e ∈ upsert root.ops key pid from he) with he | he
        · exact hshape e he
        · rw [he]
          exact ⟨p, hlookp, rfl⟩
      have hpers2 : ∀ q pidq, alookup s.allOps q = some pidq →
          alookup (getOp s.store 0).ops ("op__root__" ++ q) = some pidq →
          alookup (getOp s2.store 0).ops ("op__root__" ++ q) = some pidq := by
        intro q pidq hlq hol
        rw [hroot2]
        show alookup (upsert root.ops key pid) ("op__root__" ++ q) = some pidq
        by_cases hqk : ("op__root__" ++ q : String) = key
        · have hqp : q = p := rootName_inj (hkey ▸ hqk)
          rw [hqp] at hlq
          rw [hlq] at hlookp
          have : pidq = pid := Option.some_inj.mp hlookp
          rw [hqk, this]
          exact alookup_upsert_self _ _ _
        · rw [alookup_upsert_ne _ _ _ _ hqk]
          exact hol
      have hattp2 : alookup (getOp s2.store 0).ops key = some pid := by
        rw [hroot2]
        exact alookup_upsert_self _ _ _
      obtain ⟨s', hrun, hao, hpl, hlen, hgetp, hpers, hatts⟩ :=
        ih s2 (by omega) hdok2 hshape2
          (fun c hc => by
            obtain ⟨v, hv⟩ := Option.isSome_iff_exists.mp
              (hps c (List.mem_cons_of_mem _ hc))
            exact Option.isSome_iff_exists.mpr ⟨v, hv⟩)
      refine ⟨s', ?_, hao, hpl, by omega, ?_, ?_, ?_⟩
      · unfold attachRoots
        simp only [hlookp]
        rw [hroot] at hset
        simp only [hset]
        exact hrun
      · intro i hi
        rw [hgetp i hi]
        exact hget2 i hi
      · intro q pidq hlq hol
        exact hpers q pidq hlq (hpers2 q pidq hlq hol)
      · intro c hc
        rcases List.mem_cons.mp hc with hc | hc
        · subst hc
          exact ⟨pid, hlookp, hpers c pid hlookp hattp2⟩
        · obtain ⟨pidc, hpidc, hac⟩ := hatts c hc
          exact ⟨pidc, hpidc, hac⟩

/-- Every task of a successfully scanned group is a PythonOperator. -/
theorem topoTreeAux_all_python :
    ∀ (tg : List Task) (acc tree : List (String × List String)),
      topoTreeAux acc tg = .ok tree →
      ∀ t ∈ tg, t.className = "PythonOperator" := by
  intro tg
  induction tg with
  | nil => intro acc tree _ t ht; simp at ht
  | cons t0 rest ih =>
      intro acc tree h t ht
      unfold topoTreeAux at h
      by_cases hcn : t0.className = "PythonOperator"
      · simp only [hcn, ne_eq, not_true_eq_false, if_neg, ite_false] at h
        rcases List.mem_cons.mp ht with ht | ht
        · rw [ht]; exact hcn
        · exact ih _ _ (by simpa [hcn] using h) t ht
      · simp [hcn] at h

/-- A group containing a non-PythonOperator task fails the scan with the
    bare Exception. -/
theorem topoTreeAux_error :
    ∀ (tg : List Task) (acc : List (String × List String)),
      (∃ t ∈ tg, t.className ≠ "PythonOperator") →
      topoTreeAux acc tg = .error .exception := by
  intro tg
  induction tg with
  | nil => intro acc h; obtain ⟨t, ht, _⟩ := h; simp at ht
  | cons t0 rest ih =>
      intro acc h
      unfold topoTreeAux
      by_cases hcn : t0.className = "PythonOperator"
      · simp only [hcn, ne_eq, not_true_eq_false, if_false]
        obtain ⟨t, ht, hne⟩ := h
        rcases List.mem_cons.mp ht with ht | ht
        · rw [ht] at hne; exact absurd hcn hne
        · exact ih _ ⟨t, ht, hne⟩
      · simp [hcn]

/-- The scan succeeds on an all-PythonOperator group. -/
theorem topoTreeAux_ok :
    ∀ (tg : List Task) (acc : List (String × List String)),
      (∀ t ∈ tg, t.className = "PythonOperator") →
      ∃ tree, topoTreeAux acc tg = .ok tree := by
  intro tg
  induction tg with
  | nil => intro acc _; exact ⟨acc, rfl⟩
  | cons t0 rest ih =>
      intro acc hall
      have hcn : t0.className = "PythonOperator" := hall t0 (List.mem_cons_self _ _)
      obtain ⟨tree, htree⟩ := ih (upsert acc t0.task_id t0.upstreamIds)
        (fun t ht => hall t (List.mem_cons_of_mem _ ht))
      exact ⟨tree, by unfold topoTreeAux; simp [hcn, htree]⟩

/-- Every key of the topo tree is the task id of some task of the group. -/
theorem topoTreeAux_keys :
    ∀ (tg : List Task) (acc tree : List (String × List String)),
      topoTreeAux acc tg = .ok tree →
      ∀ pr ∈ tree, pr ∈ acc ∨ ∃ t ∈ tg, t.task_id = pr.1 := by
  intro tg
  induction tg with
  | nil =>
      intro acc tree h pr hpr
      simp only [topoTreeAux, Except.ok.injEq] at h
      subst h
      exact Or.inl hpr
  | cons t0 rest ih =>
      intro acc tree h pr hpr
      unfold topoTreeAux at h
      by_cases hcn : t0.className = "PythonOperator"
      · rcases ih _ _ (by simpa [hcn] using h) pr hpr with hmem | ⟨t, ht, hid⟩
        · rcases mem_upsert hmem with hmem | hmem
          · exact Or.inl hmem
          · refine Or.inr ⟨t0, List.mem_cons_self _ _, ?_⟩
            rw [hmem]
        · exact Or.inr ⟨t, List.mem_cons_of_mem _ ht, hid⟩
      · simp [hcn] at h

/-- The initial state of from_airflow_dag satisfies the invariant. -/
theorem INV_s0 : INV { store := [PyOp.new], allOps := [], parentLess := [] } := by
  refine ⟨by simp, by simp, by simp, ?_, ?_, rfl, by simp⟩
  · intro i hi
    simp at hi
    rw [hi]
    exact dictOk_new
  · intro i hi1 hi2
    simp at hi2
    omega

/-- Inversion of a successful import: every dependency pair of the topo
    tree is attached, and every parent-less task id hangs off the synthetic
    root. -/
theorem fromAirflowDag_inv (tg : List Task) {sf : ImportState}
    (h : fromAirflowDag tg = .ok sf) :
    ∃ tree, buildTopoTree tg = .ok tree ∧
      (∀ pr ∈ tree, ∀ p ∈ pr.2, Attached sf p pr.1) ∧
      (∀ pr ∈ tree, pr.2 = [] → ∃ cid, alookup sf.allOps pr.1 = some cid ∧
        alookup (getOp sf.store 0).ops ("op__root__" ++ pr.1) = some cid) := by
  unfold fromAirflowDag at h
  cases htree : buildTopoTree tg with
  | error e => simp [htree] at h
  | ok tree =>
      simp only [htree] at h
      cases hloop : processPairs tg tree
          { store := [PyOp.new], allOps := [], parentLess := [] } with
      | error e => simp [hloop] at h
      | ok s1 =>
          simp only [hloop] at h
          obtain ⟨hinv1, hk1, hposts⟩ := processPairs_inv tg tree _ s1 INV_s0 hloop
          have hpos1 : 1 ≤ s1.store.length := hinv1.store_pos
          have hdok1 : DictOk (getOp s1.store 0) := hinv1.dict_ok 0 hpos1
          have hshape1 : ∀ e ∈ (getOp s1.store 0).ops,
              ∃ q, alookup s1.allOps q = some e.2 ∧ e.1 = "op__root__" ++ q := by
            rw [hinv1.root_new]
            intro e he
            simp [PyOp.new] at he
          obtain ⟨s2, hrun, hao, hpl, hlen, hgetp, hpers, hatts⟩ :=
            attachRoots_ok s1.parentLess s1 hpos1 hdok1 hshape1 hinv1.parentless_ok
          simp only [hrun, Except.ok.injEq] at h
          subst h
          refine ⟨tree, rfl, ?_, ?_⟩
          · intro pr hpr p hp
            obtain ⟨pid, cid, hlp, hlc, hops⟩ := (hposts pr hpr).1 p hp
            obtain ⟨hb1, hb2⟩ := hinv1.allOps_lt _ (mem_of_alookup_eq_some hlp)
            refine ⟨pid, cid, ?_, ?_, ?_⟩
            · show alookup s2.allOps p = some pid
              rw [hao]
              exact hlp
            · show alookup s2.allOps pr.1 = some cid
              rw [hao]
              exact hlc
            · show alookup (getOp (setOp s2.store 0
                ((getOp s2.store 0).registerForward .composed)) pid).ops
                ("op__" ++ p ++ "__" ++ pr.1) = some cid
              rw [getOp_setOp_ne _ _ (show (0 : Nat) ≠ pid by omega),
                hgetp pid hb1]
              exact hops
          · intro pr hpr hnil
            have hmem := (hposts pr hpr).2 hnil
            obtain ⟨pid, hlp, hatt⟩ := hatts pr.1 hmem
            refine ⟨pid, ?_, ?_⟩
            · show alookup s2.allOps pr.1 = some pid
              rw [hao]
              exact hlp
            · show alookup (getOp (setOp s2.store 0
                ((getOp s2.store 0).registerForward .composed)) 0).ops
                ("op__root__" ++ pr.1) = some pid
              rw [getOp_setOp_self _ (show 0 < s2.store.length by omega),
                registerForward_ops]
              exact hatt

/-- A successful import implies every task of the group is a
    PythonOperator. -/
theorem fromAirflowDag_py (tg : List Task) {sf : ImportState}
    (h : fromAirflowDag tg = .ok sf) :
    ∀ t ∈ tg, t.className = "PythonOperator" := by
  unfold fromAirflowDag at h
  cases htree : buildTopoTree tg with
  | error e => simp [htree] at h
  | ok tree => exact topoTreeAux_all_python tg [] tree htree

/-- The import succeeds on an all-PythonOperator group whose
    PythonOperators all carry a python_callable. -/
theorem fromAirflowDag_total (tg : List Task)
    (hall : ∀ t ∈ tg, t.className = "PythonOperator")
    (hcall : ∀ t ∈ tg, t.className = "PythonOperator" → t.python_callable.isSome) :
    ∃ sf, fromAirflowDag tg = .ok sf := by
  obtain ⟨tree, htree⟩ := topoTreeAux_ok tg [] hall
  have hhc : ∀ pr ∈ tree, HcTask tg pr.1 := by
    intro pr hpr
    rcases topoTreeAux_keys tg [] tree htree pr hpr with hmem | ⟨t, ht, hid⟩
    · simp at hmem
    · have hfind : (tg.find? fun t' => t'.task_id = pr.1).isSome := by
        rw [List.find?_isSome]
        exact ⟨t, ht, by simp [hid]⟩
      obtain ⟨t', hsome⟩ := Option.isSome_iff_exists.mp hfind
      have ht'mem : t' ∈ tg := List.mem_of_find?_eq_some hsome
      exact ⟨t', hsome, hcall t' ht'mem (hall t' ht'mem)⟩
  obtain ⟨s1, hloop⟩ := processPairs_total tg tree _ INV_s0 hhc
  obtain ⟨hinv1, _, _⟩ := processPairs_inv tg tree _ s1 INV_s0 hloop
  have hpos1 : 1 ≤ s1.store.length := hinv1.store_pos
  have hshape1 : ∀ e ∈ (getOp s1.store 0).ops,
      ∃ q, alookup s1.allOps q = some e.2 ∧ e.1 = "op__root__" ++ q := by
    rw [hinv1.root_new]
    intro e he
    simp [PyOp.new] at he
  obtain ⟨s2, hrun, _, _, _, _, _, _⟩ :=
    attachRoots_ok s1.parentLess s1 hpos1 (hinv1.dict_ok 0 hpos1) hshape1
      hinv1.parentless_ok
  refine ⟨{ s2 with store := setOp s2.store 0 ((getOp s2.store 0).registerForward .composed) }, ?_⟩
  unfold fromAirflowDag
  rw [show buildTopoTree tg = Except.ok tree from htree]
  simp only [hloop, hrun]

/-- A group with a non-PythonOperator task makes the import raise. -/
theorem fromAirflowDag_err (tg : List Task)
    (hex : ∃ t ∈ tg, t.className ≠ "PythonOperator") :
    fromAirflowDag tg = .error .exception := by
  have herr := topoTreeAux_error tg [] hex
  unfold fromAirflowDag buildTopoTree
  simp [herr]


/-! ## The scenario task group {A: upstream=[], B: upstream=[A], C: upstream=[A]} -/

/-- Task A of the scenario, with no upstream. -/
def taskA : Task :=
  { className := "PythonOperator", task_id := "A", python_callable := some 0,
    upstreamIds := [] }

/-- Task B of the scenario, upstream [A]. -/
def taskB : Task :=
  { className := "PythonOperator", task_id := "B", python_callable := some 1,
    upstreamIds := ["A"] }

/-- Task C of the scenario, upstream [A]. -/
def taskC : Task :=
  { className := "PythonOperator", task_id := "C", python_callable := some 2,
    upstreamIds := ["A"] }

/-- The state from_airflow_dag builds for the scenario group: a root
    (id 0) with the single child op__root__A, the operator of A (id 1) with
    children op__A__B and op__A__C, and the operators of B (id 2) and C
    (id 3) bound to their callables. -/
def scenarioState : ImportState :=
  { store :=
      [ { dict := ["_operators", "op__root__A"], ops := [("op__root__A", 1)],
          fwd := some .composed },
        { dict := ["_operators", "op__A__B", "op__A__C"],
          ops := [("op__A__B", 2), ("op__A__C", 3)], fwd := some (.task 0) },
        { dict := ["_operators"], ops := [], fwd := some (.task 1) },
        { dict := ["_operators"], ops := [], fwd := some (.task 2) } ],
    allOps := [("A", 1), ("B", 2), ("C", 3)],
    parentLess := ["A"] }

theorem scenario_eval :
    fromAirflowDag [taskA, taskB, taskC] = .ok scenarioState := rfl

/-! ## Claim theorems -/

/-- A concrete PythonOperator task, used to exhibit the inverted assert of
    from_airflow_operator. -/
def pyTask : Task :=
  { className := "PythonOperator", task_id := "T", python_callable := some 0,
    upstreamIds := [] }

/-- Claim C1: the export-import round trip fails on the code for every
    single leaf operator node.  to_airflow_operator produces a BaseOperator
    task that carries no python_callable, so re-importing it as a task
    group raises the unsupported-kind Exception (its class is not
    PythonOperator), and re-importing it through from_airflow_operator
    passes the inverted assert only to crash on the missing python_callable
    attribute; a genuine PythonOperator task is instead rejected by that
    assert, contradicting its own message.  No root with a child bound to
    the original forward is ever reconstructed. -/
theorem claim_C1_roundtrip_fails (className : String) (doc initDoc : Option String)
    (timeout : Option Nat) :
    fromAirflowDag [toAirflowOperator className doc initDoc timeout]
      = .error .exception ∧
    fromAirflowOperator (toAirflowOperator className doc initDoc timeout)
      = .error .attributeError ∧
    fromAirflowOperator pyTask = .error .assertionError := by
  refine ⟨?_, rfl, rfl⟩
  apply fromAirflowDag_err
  refine ⟨toAirflowOperator className doc initDoc timeout,
    List.mem_cons_self _ _, ?_⟩
  intro h
  have hb : ("BaseOperator" : String) = "PythonOperator" := h
  exact absurd hb (by decide)

/-- Claim C4: invoking a node with declared parameters [a, b, c] on
    positional arguments 1, 2 and keyword argument c = 3 does not bind
    {a: 1, b: 2, c: 3}: the keyword loop evaluates self.inputs[key] with a
    string key, a TypeError, so the call crashes before forward runs.  The
    all-positional call shows the intended binding the positional loop
    produces. -/
theorem claim_C4_keyword_binding_crashes :
    opCall ["a", "b", "c"] (fun d => d) [(1 : Nat), 2] [("c", 3)] true
      = .error .typeError ∧
    opCall ["a", "b", "c"] (fun d => d) [(1 : Nat), 2, 3] [] true
      = .ok [("a", 1), ("b", 2), ("c", 3)] := ⟨rfl, rfl⟩

/-- Claim C5: with type checking enabled, an argument count different from
    the declared parameter count raises the arity ValueError; with it
    disabled the call never raises that error (the spec example
    invoke(N, 1, 2) on three declared parameters reaches forward with the
    incomplete positional binding). -/
theorem claim_C5_arity_check {V R : Type} (inputs : List String)
    (fwd : List (String × V) → R) (args : List V) (kwargs : List (String × V)) :
    (args.length + kwargs.length ≠ inputs.length →
      opCall inputs fwd args kwargs true = .error .valueError) ∧
    opCall inputs fwd args kwargs false ≠ .error .valueError ∧
    opCall ["a", "b", "c"] (fun d => d) [(1 : Nat), 2] [] false
      = .ok [("a", 1), ("b", 2)] := by
  refine ⟨?_, ?_, rfl⟩
  · intro h
    unfold opCall
    rw [if_pos ⟨rfl, h⟩]
  · unfold opCall
    rw [if_neg (by simp)]
    cases bindPositional inputs args with
    | none => exact fun h => nomatch h
    | some d =>
        cases kwargs with
        | nil => exact fun h => nomatch h
        | cons e rest => exact fun h => nomatch h

/-- Claim C5 witness at a concrete call. -/
theorem claim_C5_witness :
    opCall ["a", "b", "c"] (fun d => d) [(1 : Nat), 2] [] true
      = .error .valueError ∧
    opCall ["a", "b", "c"] (fun d => d) [(1 : Nat), 2] [] false
      ≠ .error .valueError :=
  ⟨(claim_C5_arity_check ["a", "b", "c"] (fun d => d) [(1 : Nat), 2] []).1
      (by decide),
    (claim_C5_arity_check ["a", "b", "c"] (fun d => d) [(1 : Nat), 2] []).2.1⟩

/-- Claim C6: Operator.__setattr__ on an Operator value fails with
    AttributeError when the owner registry was never initialised, fails
    with KeyError when the name already holds a non-child attribute, and
    in every failing case returns the owner unchanged. -/
theorem claim_C6_setattr_guard (op : PyOp) (key : String) (v : Nat) :
    ("_operators" ∉ op.dict →
      op.setattrOp key v = (op, some .attributeError)) ∧
    ("_operators" ∈ op.dict → key ∈ op.dict → key ∉ op.ops.map Prod.fst →
      op.setattrOp key v = (op, some .keyError)) ∧
    (∀ op' e, op.setattrOp key v = (op', some e) → op' = op) := by
  refine ⟨?_, ?_, ?_⟩
  · intro h
    unfold PyOp.setattrOp
    rw [if_pos h]
  · intro h1 h2 h3
    unfold PyOp.setattrOp
    rw [if_neg (by simp [h1]), if_pos ⟨h2, h3⟩]
  · intro op' e h
    unfold PyOp.setattrOp at h
    by_cases hg1 : "_operators" ∉ op.dict
    · rw [if_pos hg1] at h
      exact (Prod.mk.injEq _ _ _ _ ▸ h).1.symm
    · rw [if_neg hg1] at h
      by_cases hg2 : key ∈ op.dict ∧ key ∉ op.ops.map Prod.fst
      · rw [if_pos hg2] at h
        exact (Prod.mk.injEq _ _ _ _ ▸ h).1.symm
      · rw [if_neg hg2] at h
        have := (Prod.mk.injEq _ _ _ _ ▸ h).2
        cases this

/-- Claim C6 witness: an owner whose base init never ran, and an
    initialised owner with a colliding non-child attribute. -/
theorem claim_C6_witness :
    PyOp.setattrOp ⟨[], [], none⟩ "x" 1 = (⟨[], [], none⟩, some .attributeError) ∧
    PyOp.setattrOp ⟨["_operators", "x"], [], none⟩ "x" 1
      = (⟨["_operators", "x"], [], none⟩, some .keyError) :=
  ⟨(claim_C6_setattr_guard ⟨[], [], none⟩ "x" 1).1 (by decide),
    (claim_C6_setattr_guard ⟨["_operators", "x"], [], none⟩ "x" 1).2.1
      (by decide) (by decide) (by decide)⟩

/-- Claim C9: the doc_rst computation is doc ++ "\n" ++ init_doc, so when
    both descriptive texts are absent the field is some "\n", not omitted:
    the newline makes full_doc always truthy and the None replacement dead
    code.  The field is never omitted for any input. -/
theorem claim_C9_doc_never_omitted :
    fullDoc none none = some "\n" ∧
    (toAirflowOperator "MyOp" none none none).doc_rst = some "\n" ∧
    (∀ doc initDoc, fullDoc doc initDoc ≠ none) := by
  refine ⟨rfl, rfl, ?_⟩
  intro doc initDoc h
  unfold fullDoc at h
  by_cases hf : truthyStr doc ++ "\n" ++ truthyStr initDoc = ""
  · have hdata := congrArg String.data hf
    simp [String.data_append] at hdata
  · rw [if_neg hf] at h
    cases h

/-- Claim C9 witness: the field is present even with both texts set. -/
theorem claim_C9_witness : fullDoc (some "x") (some "y") ≠ none :=
  claim_C9_doc_never_omitted.2.2 (some "x") (some "y")

/-- The first yield of a traversal started on a fresh memo is the start
    node under the given prefix. -/
theorem namedOps_head (st : List PyOp) {f s : Nat} {p : String}
    {o : List (String × Nat)} {m : List Nat}
    (h : namedOps st (f + 1) s [] p true = some (o, m)) :
    ∃ oc, o = (p, s) :: oc := by
  rw [namedOps_succ, if_neg (List.not_mem_nil s)] at h
  cases hcl : childLoop (fun c mm q => namedOps st f c mm q true)
      (getOp st s).ops [s] p with
  | none => simp [hcl] at h
  | some pr =>
      obtain ⟨oc, mc⟩ := pr
      simp only [hcl, Option.some.injEq, Prod.mk.injEq] at h
      exact ⟨oc, h.1.symm⟩

/-- Claim C2: for every imported task group, each (child, parents) pair of
    the topo tree leaves the child operator attached to each parent
    operator under op__{parent}__{child}, and each parent-less task
    attached to the synthetic root under op__root__{task_id}; in
    particular, importing {A: [], B: [A], C: [A]} yields a root whose one
    child is op__root__A, A carrying the two children op__A__B and
    op__A__C bound to the operators of B and C (whose forwards are the
    callables of B and C), with is_dag true on the result. -/
theorem claim_C2_dependency_attachment :
    (∀ (tg : List Task) (sf : ImportState), fromAirflowDag tg = .ok sf →
      ∃ tree, buildTopoTree tg = .ok tree ∧
        (∀ pr ∈ tree, ∀ p ∈ pr.2, Attached sf p pr.1) ∧
        (∀ pr ∈ tree, pr.2 = [] → ∃ cid, alookup sf.allOps pr.1 = some cid ∧
          alookup (getOp sf.store 0).ops ("op__root__" ++ pr.1) = some cid)) ∧
    (fromAirflowDag [taskA, taskB, taskC] = .ok scenarioState ∧
      (getOp scenarioState.store 0).ops = [("op__root__A", 1)] ∧
      (getOp scenarioState.store 1).ops = [("op__A__B", 2), ("op__A__C", 3)] ∧
      alookup scenarioState.allOps "B" = some 2 ∧
      alookup scenarioState.allOps "C" = some 3 ∧
      (getOp scenarioState.store 2).fwd = some (.task 1) ∧
      (getOp scenarioState.store 3).fwd = some (.task 2) ∧
      isDag scenarioState.store 0 = some true) :=
  ⟨fun tg _sf h => fromAirflowDag_inv tg h,
    scenario_eval, rfl, rfl, rfl, rfl, rfl, rfl, rfl⟩

/-- Claim C2 witness: the general attachment statement applied to the
    scenario group. -/
theorem claim_C2_witness :
    ∃ tree, buildTopoTree [taskA, taskB, taskC] = .ok tree ∧
      (∀ pr ∈ tree, ∀ p ∈ pr.2, Attached scenarioState p pr.1) ∧
      (∀ pr ∈ tree, pr.2 = [] →
        ∃ cid, alookup scenarioState.allOps pr.1 = some cid ∧
          alookup (getOp scenarioState.store 0).ops ("op__root__" ++ pr.1)
            = some cid) :=
  claim_C2_dependency_attachment.1 [taskA, taskB, taskC] scenarioState
    scenario_eval

/-- A two-node chain: the root owns one child registered under "a". -/
def chainSt : List PyOp :=
  [⟨["_operators"], [("a", 1)], none⟩, ⟨["_operators"], [], none⟩]

/-- Claim C3 counterexample: as stated, the claim requires every yielded
    name to be the parent dotted path plus "." plus the registration name,
    which at the root (empty path) would give ".a"; named_operators yields
    "a" instead, because the code inserts the dot only when the prefix is
    nonempty. -/
theorem claim_C3_counterexample :
    namedOps chainSt 3 0 [] "" true = some ([("", 0), ("a", 1)], [1, 0]) ∧
    ("a" : String) ≠ "" ++ "." ++ "a" := ⟨rfl, by decide⟩

/-- Claim C3 (amended): on every valid store, named_operators with
    remove_duplicate yields each reachable node instance exactly once, the
    root first under the empty path, and the whole run coincides with the
    spec worklist traversal whose naming rule inserts the dot only under a
    nonempty parent path. -/
theorem claim_C3_traversal (st : List PyOp) (root : Nat)
    (hv : ValidStore st) (hroot : root < st.length) :
    ∃ out memo, namedOps st (st.length + 1) root [] "" true = some (out, memo) ∧
      (out.map Prod.snd).Nodup ∧
      (∀ v, v ∈ out.map Prod.snd ↔ Reachable st root v) ∧
      (∃ oc, out = ("", root) :: oc) ∧
      (∃ g, specDfs st g [("", root)] [] = some (out, memo)) := by
  obtain ⟨out, memo, heval⟩ := namedOps_total st hv (st.length + 1) root [] ""
    hroot (by simp) (by simp) (by omega)
  have hmemoeq := namedOps_memo_eq st _ _ _ _ _ _ heval
  refine ⟨out, memo, heval, ?_, ?_, namedOps_head st heval,
    namedOps_eq_specDfs st heval⟩
  · have hnd := namedOps_memo_nodup st _ _ _ _ _ _ heval (by simp)
    rw [hmemoeq] at hnd
    simp only [List.append_nil, List.nodup_reverse] at hnd
    exact hnd
  · intro v
    constructor
    · intro hv2
      have hvm : v ∈ memo := by
        rw [hmemoeq]
        simp only [List.append_nil, List.mem_reverse]
        exact hv2
      rcases namedOps_sound st _ _ _ _ _ _ heval v hvm with hc | hc
      · simp at hc
      · exact hc
    · intro hr
      have hvm : v ∈ memo := namedOps_complete st heval hr
      rw [hmemoeq] at hvm
      simpa using hvm

/-- A diamond-shaped store: the root registers the same child instance
    under two names. -/
def diamondSt : List PyOp :=
  [⟨["_operators"], [("x", 1), ("y", 1)], none⟩, ⟨["_operators"], [], none⟩]

/-- Claim C3 witness: the amended traversal statement at a store where one
    instance is reachable under two names. -/
theorem claim_C3_witness :
    ValidStore diamondSt ∧ 0 < diamondSt.length ∧
    (∃ out memo,
      namedOps diamondSt (diamondSt.length + 1) 0 [] "" true = some (out, memo) ∧
      (out.map Prod.snd).Nodup ∧
      (∀ v, v ∈ out.map Prod.snd ↔ Reachable diamondSt 0 v) ∧
      (∃ oc, out = ("", 0) :: oc) ∧
      (∃ g, specDfs diamondSt g [("", 0)] [] = some (out, memo))) :=
  ⟨by decide, by decide, claim_C3_traversal diamondSt 0 (by decide) (by decide)⟩

/-- Claim C7: is_dag walks named_operators with identity dedup on and
    reports failure exactly when a normalised path label (the empty root
    label read as "root") repeats among the visited pairs. -/
theorem claim_C7_is_dag (st : List PyOp) (root : Nat)
    (hv : ValidStore st) (hroot : root < st.length) :
    ∃ out memo, namedOps st (st.length + 1) root [] "" true = some (out, memo) ∧
      isDag st root = some (isDagLoop (out.map fun pr => normLabel pr.1) []) ∧
      (isDag st root = some false ↔
        ¬ (out.map fun pr => normLabel pr.1).Nodup) := by
  obtain ⟨out, memo, heval⟩ := namedOps_total st hv (st.length + 1) root [] ""
    hroot (by simp) (by simp) (by omega)
  have hdag : isDag st root
      = some (isDagLoop (out.map fun pr => normLabel pr.1) []) := by
    unfold isDag
    simp only [heval]
  refine ⟨out, memo, heval, hdag, ?_⟩
  rw [hdag]
  constructor
  · intro h hnd
    have hb : isDagLoop (out.map fun pr => normLabel pr.1) [] = false :=
      Option.some_inj.mp h
    rw [← isDagLoop_nil_true_iff] at hnd
    rw [hnd] at hb
    cases hb
  · intro h
    have hb : isDagLoop (out.map fun pr => normLabel pr.1) [] ≠ true :=
      fun ht => h ((isDagLoop_nil_true_iff _).mp ht)
    rw [Bool.eq_false_iff.mpr hb]

/-- A store with a path-label collision: the root registers its child
    under the name "root", which collides with the normalised root label. -/
def dupLabelSt : List PyOp :=
  [⟨["_operators", "root"], [("root", 1)], none⟩, ⟨["_operators"], [], none⟩]

/-- Claim C7 witness at the label-collision store. -/
theorem claim_C7_witness :
    ValidStore dupLabelSt ∧ 0 < dupLabelSt.length ∧
    (∃ out memo,
      namedOps dupLabelSt (dupLabelSt.length + 1) 0 [] "" true = some (out, memo) ∧
      isDag dupLabelSt 0 = some (isDagLoop (out.map fun pr => normLabel pr.1) []) ∧
      (isDag dupLabelSt 0 = some false ↔
        ¬ (out.map fun pr => normLabel pr.1).Nodup)) :=
  ⟨by decide, by decide, claim_C7_is_dag dupLabelSt 0 (by decide) (by decide)⟩

/-- Claim C8: importing a task group fails with the hard Exception while
    scanning (before any operator is built) as soon as some task is not a
    PythonOperator, and — given that PythonOperators carry their
    python_callable, as the scheduler guarantees — the import succeeds
    exactly when every task is a PythonOperator. -/
theorem claim_C8_unsupported_kind (tg : List Task)
    (hcall : ∀ t ∈ tg, t.className = "PythonOperator" →
      t.python_callable.isSome) :
    ((∃ t ∈ tg, t.className ≠ "PythonOperator") →
      fromAirflowDag tg = .error .exception) ∧
    ((∃ sf, fromAirflowDag tg = .ok sf) ↔
      ∀ t ∈ tg, t.className = "PythonOperator") := by
  refine ⟨fromAirflowDag_err tg, ?_, ?_⟩
  · rintro ⟨sf, h⟩
    exact fromAirflowDag_py tg h
  · intro hall
    exact fromAirflowDag_total tg hall hcall

/-- Claim C8 witness: a group with a BaseOperator task fails; the
    all-PythonOperator scenario group succeeds. -/
theorem claim_C8_witness :
    (((∃ t ∈ [taskA, toAirflowOperator "MyOp" none none none],
        t.className ≠ "PythonOperator") →
      fromAirflowDag [taskA, toAirflowOperator "MyOp" none none none]
        = .error .exception) ∧
     ((∃ sf, fromAirflowDag [taskA, toAirflowOperator "MyOp" none none none]
        = .ok sf) ↔
      ∀ t ∈ [taskA, toAirflowOperator "MyOp" none none none],
        t.className = "PythonOperator")) ∧
    ((∃ sf, fromAirflowDag [taskA, taskB, taskC] = .ok sf) ↔
      ∀ t ∈ [taskA, taskB, taskC], t.className = "PythonOperator") :=
  ⟨claim_C8_unsupported_kind [taskA, toAirflowOperator "MyOp" none none none]
      (by decide),
    (claim_C8_unsupported_kind [taskA, taskB, taskC] (by decide)).2⟩

/-- A two-node cycle: node 0 registers node 1 and node 1 registers node 0,
    a node reachable from itself. -/
def cycSt : List PyOp :=
  [⟨["_operators"], [("a", 1)], none⟩, ⟨["_operators"], [("b", 0)], none⟩]

/-- Claim C10: on every valid store — shared instances and structural
    cycles included — named_operators with remove_duplicate terminates
    within fuel length+1 and yields a finite list, because a node already
    in the memo yields nothing at all, its subtree included. -/
theorem claim_C10_termination (st : List PyOp) (hv : ValidStore st) :
    (∀ root, root < st.length →
      ∃ o m, namedOps st (st.length + 1) root [] "" true = some (o, m)) ∧
    (∀ fuel s memo p, s ∈ memo →
      namedOps st (fuel + 1) s memo p true = some ([], memo)) := by
  constructor
  · intro root hroot
    exact namedOps_total st hv (st.length + 1) root [] "" hroot (by simp)
      (by simp) (by omega)
  · intro fuel s memo p hmem
    rw [namedOps_succ, if_pos hmem]

/-- Claim C10 witness at the two-node cycle. -/
theorem claim_C10_witness :
    ValidStore cycSt ∧
    ((∀ root, root < cycSt.length →
      ∃ o m, namedOps cycSt (cycSt.length + 1) root [] "" true = some (o, m)) ∧
    (∀ fuel s memo p, s ∈ memo →
      namedOps cycSt (fuel + 1) s memo p true = some ([], memo))) :=
  ⟨by decide, claim_C10_termination cycSt (by decide)⟩

end Nbox
